import Mathlib

/-!
# lsh: dispatch, tokenizer, the variable store, `export` and `echo`

A shallow embedding of `lsh_split_line`, `lsh_execute` and the built-ins of `src/main.c`,
above all `lsh_export` and `lsh_echo` and the global variable table they share.

* A C string is the list of its bytes before the terminating NUL (`Token`); a byte is a
  `Char` and the lists that stand for C strings contain no NUL.
* `char **args` (NULL-terminated) is a `List Token`; `args[i] == NULL` is `args[i]? = none`.
* The globals `num_of_variables`, `variables_names`, `variables_values` are a `Store`:
  the list of the first `num_of_variables` rows, as (name, value) pairs.
* The two local staging buffers of `lsh_export` are written strictly left to right; a
  buffer is represented by the bytes written so far, so the index of the next write is its
  length.  Writes to `variable_name` are bounded by the loop (`i < 10`); writes to
  `variable_value` are not bounded by the code, and a write is only defined while its
  index is inside the array.  A call that writes outside the array has no outcome
  (`none`): in C this is undefined behaviour.
* `printf` goes to `out`, `fprintf(stderr, ...)` goes to `err`.
* The system calls of `lsh_cd` and `lsh_launch` are answered by a `Host`; `strtok` is the
  C library function; `malloc` and `realloc` are taken to succeed.
-/

namespace Lsh

/-- The bytes of a C string, terminator excluded. -/
abbrev Token := List Char

/-- The variable table: rows `0 .. num_of_variables - 1` of `variables_names` and
`variables_values`, in index order. -/
abbrev Store := List (Token × Token)

/-- Result of a built-in that returned: the table afterwards, what was printed on stdout
and stderr, and the returned `int` (1: keep looping, 0: leave the loop). -/
structure Outcome where
  store : Store
  out : List Char
  err : List Char
  ret : Nat
deriving DecidableEq

/-- `#define MAX_NUM_OF_VARIABLES 5` -/
def MAX_NUM_OF_VARIABLES : Nat := 5

/-- `#define MAX_LENGTH_OF_VARIABLE_NAME 10` -/
def MAX_LENGTH_OF_VARIABLE_NAME : Nat := 10

/-- `#define MAX_LENGTH_OF_VARIABLE_VALUE 15` -/
def MAX_LENGTH_OF_VARIABLE_VALUE : Nat := 15

/-- The terminating byte of a C string. -/
def NUL : Char := Char.ofNat 0

/-- `tok[i]` for `i ≤ strlen(tok)`: the byte, or the terminator at `i = strlen(tok)`. -/
def charAt (tok : Token) (i : Nat) : Char := tok.getD i NUL

/-- `bool isLetter(char c)`: the code of `c` lies in 65..90 or 97..122.  (A byte above 127
is negative as a signed `char` and above 122 as an unsigned one: not a letter either way.) -/
def isLetter (c : Char) : Bool :=
  (c.toNat > 64 && c.toNat < 91) || (c.toNat > 96 && c.toNat < 123)

def msgFirstLetter : List Char :=
  "lsh: export: first letter of variable name must be a letter\n".toList

def msgNameLimit : List Char :=
  "lsh: export: variable name exceeds a limit of 10 characters\n".toList

def msgValueLimit : List Char :=
  "lsh: export: variable value exceeds a limit of 15 characters\n".toList

def msgMoreArgs : List Char :=
  "lsh: export: expected more arguments\n".toList

def msgMaxVars : List Char :=
  "lsh: export: maximum number of variables reached\n".toList

/-- `fprintf(stderr, msg); return 1;` with the table untouched. -/
def diag (st : Store) (msg : List Char) : Outcome :=
  { store := st, out := [], err := msg, ret := 1 }

/-! ## lsh_echo -/

/-- The inner `while` of `lsh_echo` for one table row, followed by the test
`k == strlen(args[ind_arg])`.  The first argument is `variables_names[i]` from index `j`
on, the second is `args[ind_arg]` from index `k` on. -/
def scanName : List Char → List Char → Bool
  | _, [] => true
  | [], _ :: _ => false
  | n :: ns, r :: rs => if n = r then scanName ns rs else false

/-- The `for` loop of `lsh_echo` over the table rows for a token starting with `$`:
what it prints (the value of the first row whose scan succeeds, then `break`). -/
def echoLookup (arg : Token) : Store → List Char
  | [] => []
  | (name, value) :: rest =>
    if scanName name (arg.drop 1) then value else echoLookup arg rest

/-- The body of the outer `while` of `lsh_echo` for one token. -/
def echoToken (st : Store) (arg : Token) : List Char :=
  if charAt arg 0 = '$' then echoLookup arg st ++ [' '] else arg ++ [' ']

/-- The outer `while (args[ind_arg] != NULL)` of `lsh_echo`; the argument is
`args[ind_arg ..]`. -/
def echoLoop (st : Store) : List Token → List Char
  | [] => []
  | arg :: rest => echoToken st arg ++ echoLoop st rest

/-- `int lsh_echo(char **args)` -/
def lsh_echo (st : Store) (args : List Token) : Outcome :=
  match args[1]? with
  | none => { store := st, out := [], err := [], ret := 1 }
  | some _ => { store := st, out := [], err := echoLoop st (args.drop 1) ++ ['\n'], ret := 1 }

/-! ## lsh_export -/

/-- The listing printed by `export` without arguments. -/
def listing : Store → List Char
  | [] => []
  | (name, value) :: rest =>
    "declare ".toList ++ name ++ " = ".toList ++ [Char.ofNat 34] ++ value ++
      [Char.ofNat 34, '\n'] ++ listing rest

/-- The `for` loop that fills `variable_name` from `args[1]`: `left` iterations remain,
`i` is the loop index, `ind_tmp` the cursor; returns the final `ind_tmp` and the bytes
written to `variable_name[0 .. ind_tmp - 1]`. -/
def nameLoop (tok : Token) : Nat → Nat → Nat → List Char → Nat × List Char
  | 0, _, ind_tmp, variable_name => (ind_tmp, variable_name)
  | left + 1, i, ind_tmp, variable_name =>
    if charAt tok i = '=' || ind_tmp = tok.length then (ind_tmp, variable_name)
    else nameLoop tok left (i + 1) (ind_tmp + 1) (variable_name ++ [charAt tok i])

/-- Where name parsing stops: either with a diagnostic, or with the name and the
cursor (`ind_arg`, `ind_tmp`) at which the value starts. -/
inductive Parsed where
  | fail (msg : List Char)
  | cursor (variable_name : Token) (ind_arg ind_tmp : Nat)
deriving DecidableEq

/-- Lines 149-216 of `lsh_export`: first-letter test, name loop, and the search for the
start of the value. -/
def parseName (args : List Token) (a1 : Token) : Parsed :=
  if !isLetter (charAt a1 0) then .fail msgFirstLetter
  else
    let (ind_tmp, variable_name) := nameLoop a1 MAX_LENGTH_OF_VARIABLE_NAME 0 0 []
    if ind_tmp < a1.length then
      if charAt a1 ind_tmp ≠ '=' then .fail msgNameLimit
      else if ind_tmp + 1 = a1.length then
        match args[2]? with
        | none => .fail msgMoreArgs
        | some _ => .cursor variable_name 2 0
      else .cursor variable_name 1 (ind_tmp + 1)
    else
      match args[2]? with
      | none => .fail msgMoreArgs
      | some a2 =>
        if a2.length = 1 && charAt a2 0 = '=' then
          match args[3]? with
          | none => .fail msgMoreArgs
          | some _ => .cursor variable_name 3 0
        else if charAt a2 0 = '=' then .cursor variable_name 2 1
        else .cursor variable_name 2 0

/-- `variable_value[ind_tmp_value++] = c`, where `ind_tmp_value` is the number of bytes
written so far; defined only for an index inside `char variable_value[15 + 1]`. -/
def putValue (variable_value : List Char) (c : Char) : Option (List Char) :=
  if variable_value.length < MAX_LENGTH_OF_VARIABLE_VALUE + 1 then
    some (variable_value ++ [c])
  else none

/-- The inner `for` of the value loop: copies the bytes `args[ind_arg][ind_tmp ..]`. -/
def copyBytes : List Char → List Char → Option (List Char)
  | variable_value, [] => some variable_value
  | variable_value, c :: cs =>
    match putValue variable_value c with
    | none => none
    | some b => copyBytes b cs

/-- The `while (args[ind_arg] != NULL)` loop that builds `variable_value`; the first
argument is `args[ind_arg ..]`. -/
def valueLoop : List Token → Nat → Nat → List Char → Option (List Char)
  | [], _, _, variable_value => some variable_value
  | tok :: rest, ind_arg, ind_tmp, variable_value =>
    match (if ind_arg > 1 && variable_value.length > 0 then putValue variable_value ' '
           else some variable_value) with
    | none => none
    | some b =>
      match copyBytes b (tok.drop ind_tmp) with
      | none => none
      | some b2 => valueLoop rest (ind_arg + 1) 0 b2

/-- The `for` loop that looks for `variable_name` in the table and overwrites the value
of the first row with that name; the flag is `added`. -/
def replaceLoop (variable_name variable_value : Token) : Store → Store × Bool
  | [] => ([], false)
  | (n, v) :: rest =>
    if n = variable_name then ((n, variable_value) :: rest, true)
    else ((n, v) :: (replaceLoop variable_name variable_value rest).1,
          (replaceLoop variable_name variable_value rest).2)

/-- Lines 240-261 of `lsh_export`: replace, or append, or report a full table. -/
def commit (st : Store) (variable_name variable_value : Token) : Outcome :=
  if (replaceLoop variable_name variable_value st).2 then
    { store := (replaceLoop variable_name variable_value st).1, out := [], err := [], ret := 1 }
  else if st.length = MAX_NUM_OF_VARIABLES then diag st msgMaxVars
  else { store := st ++ [(variable_name, variable_value)], out := [], err := [], ret := 1 }

/-- Lines 218-261 of `lsh_export`: build the value, terminate it, test its length, commit. -/
def storeValue (st : Store) (args : List Token) (variable_name : Token)
    (ind_arg ind_tmp : Nat) : Option Outcome :=
  match valueLoop (args.drop ind_arg) ind_arg ind_tmp [] with
  | none => none
  | some variable_value =>
    if variable_value.length < MAX_LENGTH_OF_VARIABLE_VALUE + 1 then
      if variable_value.length > MAX_LENGTH_OF_VARIABLE_VALUE then some (diag st msgValueLimit)
      else some (commit st variable_name variable_value)
    else none

/-- `int lsh_export(char **args)`; `none` when a staging buffer is written out of bounds. -/
def lsh_export (st : Store) (args : List Token) : Option Outcome :=
  match args[1]? with
  | none => some { store := st, out := listing st, err := [], ret := 1 }
  | some a1 =>
    match parseName args a1 with
    | .fail msg => some (diag st msg)
    | .cursor variable_name ind_arg ind_tmp => storeValue st args variable_name ind_arg ind_tmp

/-! ## The indices written into the staging buffers of `lsh_export` -/

/-- The indices `i` of the writes `variable_name[i] = args[ind_arg][i]` made by the name
loop (same loop as `nameLoop`). -/
def nameLoopWrites (tok : Token) : Nat → Nat → Nat → List Nat
  | 0, _, _ => []
  | left + 1, i, ind_tmp =>
    if charAt tok i = '=' || ind_tmp = tok.length then []
    else i :: nameLoopWrites tok left (i + 1) (ind_tmp + 1)

/-- The indices of the writes `variable_value[ind_tmp_value++] = args[ind_arg][ind_tmp]` of
the inner `for`, starting with `ind_tmp_value = n`, one per byte copied. -/
def copyWrites (n : Nat) : List Char → List Nat
  | [] => []
  | _ :: cs => n :: copyWrites (n + 1) cs

/-- The indices of all writes into `variable_value` computed by the value loop and by the
terminator write that follows it, in order (same loop as `valueLoop`, with the index
`ind_tmp_value` carried instead of the buffer and no bound applied). -/
def valueLoopWrites : List Token → Nat → Nat → Nat → List Nat
  | [], _, _, ind_tmp_value => [ind_tmp_value]
  | tok :: rest, ind_arg, ind_tmp, ind_tmp_value =>
    if ind_arg > 1 && ind_tmp_value > 0 then
      ind_tmp_value :: (copyWrites (ind_tmp_value + 1) (tok.drop ind_tmp) ++
        valueLoopWrites rest (ind_arg + 1) 0
          (ind_tmp_value + 1 + (tok.drop ind_tmp).length))
    else
      copyWrites ind_tmp_value (tok.drop ind_tmp) ++
        valueLoopWrites rest (ind_arg + 1) 0 (ind_tmp_value + (tok.drop ind_tmp).length)

/-- The indices written by one call of `lsh_export`: into `variable_name` (the name loop,
then the terminator at `size_variable_name` when line 216 is reached) and into
`variable_value` (lines 221-233). -/
def exportWrites (args : List Token) : List Nat × List Nat :=
  match args[1]? with
  | none => ([], [])
  | some a1 =>
    if !isLetter (charAt a1 0) then ([], [])
    else
      match parseName args a1 with
      | .fail _ => (nameLoopWrites a1 MAX_LENGTH_OF_VARIABLE_NAME 0 0, [])
      | .cursor variable_name ind_arg ind_tmp =>
        (nameLoopWrites a1 MAX_LENGTH_OF_VARIABLE_NAME 0 0 ++ [variable_name.length],
          valueLoopWrites (args.drop ind_arg) ind_arg ind_tmp 0)

/-! ## The built-in table and lsh_execute -/

/-- What the host answers to the system calls made by `lsh_cd` and `lsh_launch`:
for `chdir(path)` and for `fork()`, `none` on success and the `strerror` text printed by
`perror` on failure. -/
structure Host where
  chdirError : Token → Option (List Char)
  forkError : Option (List Char)

/-- What a handler did when it returned: its `Outcome`, the directory the process
changed to, and the argument vector of the child it started and waited for. -/
structure Effects where
  outcome : Outcome
  chdir : Option Token
  spawned : Option (List Token)
deriving DecidableEq

/-- The function `lsh_execute` handed the token vector to. -/
inductive Invoked where
  | nothing
  | builtin (name : Token)
  | launch
deriving DecidableEq

/-- `perror("lsh")` for the given `strerror` text. -/
def perror (text : List Char) : List Char := "lsh: ".toList ++ text ++ ['\n']

/-- `char *builtin_str[]` -/
def builtin_str : List Token :=
  ["cd".toList, "help".toList, "exit".toList, "export".toList, "echo".toList]

/-- `int lsh_cd(char **args)` -/
def lsh_cd (host : Host) (st : Store) (args : List Token) : Option Effects :=
  match args[1]? with
  | none =>
    some { outcome := { store := st, out := [],
                        err := "lsh: expected argument to \"cd\"\n".toList, ret := 1 },
           chdir := none, spawned := none }
  | some dir =>
    match host.chdirError dir with
    | none =>
      some { outcome := { store := st, out := [], err := [], ret := 1 },
             chdir := some dir, spawned := none }
    | some text =>
      some { outcome := { store := st, out := [], err := perror text, ret := 1 },
             chdir := none, spawned := none }

/-- `int lsh_help(char **args)` -/
def lsh_help (_host : Host) (st : Store) (_args : List Token) : Option Effects :=
  some { outcome :=
           { store := st,
             out := "Stephen Brennan's LSH\n".toList ++
               "Type program names and arguments, and hit enter.\n".toList ++
               "The following are built in:\n".toList ++
               (builtin_str.map (fun name => "  ".toList ++ name ++ ['\n'])).flatten ++
               "Use the man command for information on other programs.\n".toList,
             err := [], ret := 1 },
         chdir := none, spawned := none }

/-- `int lsh_exit(char **args)` -/
def lsh_exit (_host : Host) (st : Store) (_args : List Token) : Option Effects :=
  some { outcome := { store := st, out := [], err := [], ret := 0 },
         chdir := none, spawned := none }

/-- `lsh_export` as an entry of `builtin_func`. -/
def exportHandler (_host : Host) (st : Store) (args : List Token) : Option Effects :=
  (lsh_export st args).map (fun o => { outcome := o, chdir := none, spawned := none })

/-- `lsh_echo` as an entry of `builtin_func`. -/
def echoHandler (_host : Host) (st : Store) (args : List Token) : Option Effects :=
  some { outcome := lsh_echo st args, chdir := none, spawned := none }

/-- `int lsh_launch(char **args)` in the shell process, once the child it waits for has
terminated (the child itself never returns from this function: it is replaced by
`execvp` or calls `exit`). -/
def lsh_launch (host : Host) (st : Store) (args : List Token) : Option Effects :=
  match host.forkError with
  | some text =>
    some { outcome := { store := st, out := [], err := perror text, ret := 1 },
           chdir := none, spawned := none }
  | none =>
    some { outcome := { store := st, out := [], err := [], ret := 1 },
           chdir := none, spawned := some args }

/-- `int (*builtin_func[])(char **)` -/
def builtin_func : List (Host → Store → List Token → Option Effects) :=
  [lsh_cd, lsh_help, lsh_exit, exportHandler, echoHandler]

/-- The `for` loop of `lsh_execute` over the two tables, from index `i` on, followed by
the call of `lsh_launch`. -/
def executeLoop (host : Host) (st : Store) (args : List Token) (a0 : Token) :
    List Token → List (Host → Store → List Token → Option Effects) →
      Option (Invoked × Effects)
  | name :: strs, f :: funcs =>
    if a0 = name then (f host st args).map (fun e => (Invoked.builtin name, e))
    else executeLoop host st args a0 strs funcs
  | _, _ => (lsh_launch host st args).map (fun e => (Invoked.launch, e))

/-- `int lsh_execute(char **args)` -/
def lsh_execute (host : Host) (st : Store) (args : List Token) : Option (Invoked × Effects) :=
  match args with
  | [] =>
    some (Invoked.nothing,
      { outcome := { store := st, out := [], err := [], ret := 1 },
        chdir := none, spawned := none })
  | a0 :: _ => executeLoop host st args a0 builtin_str builtin_func

/-! ## lsh_split_line -/

/-- `#define LSH_TOK_DELIM " \t\r\n\a"` -/
def LSH_TOK_DELIM : List Char := [' ', '\t', '\r', '\n', Char.ofNat 7]

/-- Membership of a byte in `LSH_TOK_DELIM`. -/
def isDelim (c : Char) : Bool := LSH_TOK_DELIM.contains c

/-- The C library's `strtok` with the delimiters `LSH_TOK_DELIM`, on the text that is left
to scan: it skips leading delimiters; at the end of the text it returns NULL (`none`);
otherwise the token runs up to the next delimiter or the end of the text, that delimiter
is overwritten by NUL, and the scan resumes after it.  Returns the token and the text
left to scan. -/
def strtok (s : List Char) : Option (Token × List Char) :=
  match s.dropWhile isDelim with
  | [] => none
  | c :: cs =>
    some ((c :: cs).takeWhile (fun x => !isDelim x),
      ((c :: cs).dropWhile (fun x => !isDelim x)).drop 1)

/-- The `while (token != NULL)` loop of `lsh_split_line`, with a bound on the number of
`strtok` calls (`none` when the bound is used up); allocation is taken to succeed. -/
def splitLoop : Nat → List Char → Option (List Token)
  | 0, _ => none
  | fuel + 1, s =>
    match strtok s with
    | none => some []
    | some (token, rest) => (splitLoop fuel rest).map (fun tokens => token :: tokens)

/-- `char **lsh_split_line(char *line)`: a line of `n` bytes needs at most `n + 1` calls
of `strtok`. -/
def lsh_split_line (line : List Char) : Option (List Token) :=
  splitLoop (line.length + 1) line

/-! ## Vocabulary of the specification -/

/-- The bytes of a token before its first `=`. -/
def beforeEq (tok : Token) : Token := tok.takeWhile (fun c => c ≠ '=')

/-- The bytes appended to a non-empty value by the tokens that follow the current one:
each token preceded by one space. -/
def spaced (toks : List Token) : List Char := (toks.map (fun t => ' ' :: t)).flatten

/-- The names held by the table, in row order. -/
def names (st : Store) : List Token := st.map Prod.fst

/-- A name that `export` can store as given: 1 to 10 bytes, a letter first, no `=`. -/
def ValidName (n : Token) : Prop :=
  1 ≤ n.length ∧ n.length ≤ 10 ∧ isLetter (charAt n 0) = true ∧ '=' ∉ n

/-- A value that `export` can store as given: 1 to 15 bytes. -/
def ValidValue (v : Token) : Prop := 1 ≤ v.length ∧ v.length ≤ 15

instance (n : Token) : Decidable (ValidName n) :=
  inferInstanceAs
    (Decidable (1 ≤ n.length ∧ n.length ≤ 10 ∧ isLetter (charAt n 0) = true ∧ '=' ∉ n))

instance (v : Token) : Decidable (ValidValue v) :=
  inferInstanceAs (Decidable (1 ≤ v.length ∧ v.length ≤ 15))

/-- The invariants of the variable table: at most 5 rows, names of 1 to 10 bytes, values
of at most 15 bytes, pairwise distinct names. -/
def WellFormed (st : Store) : Prop :=
  st.length ≤ 5 ∧
  (∀ p ∈ st, 1 ≤ p.1.length ∧ p.1.length ≤ 10 ∧ p.2.length ≤ 15) ∧
  (names st).Nodup

/-- Stores reachable from the empty table by calls of the two built-ins on token vectors
of non-empty tokens.  A call of `lsh_export` is a step when it has an outcome, that is when
it stays inside its staging buffers. -/
inductive Reachable : Store → Prop where
  | empty : Reachable []
  | byExport (st : Store) (args : List Token) (o : Outcome) :
      Reachable st → (∀ t ∈ args, t ≠ []) → lsh_export st args = some o → Reachable o.store
  | byEcho (st : Store) (args : List Token) :
      Reachable st → (∀ t ∈ args, t ≠ []) → Reachable (lsh_echo st args).store

/-- The token vector of `export NAME=VALUE`. -/
def exportCmd (p : Token × Token) : List Token := ["export".toList, p.1 ++ '=' :: p.2]

/-- Runs `lsh_export` on a sequence of token vectors, threading the table. -/
def runExports : Store → List (List Token) → Option Store
  | st, [] => some st
  | st, args :: rest =>
    match lsh_export st args with
    | none => none
    | some o => runExports o.store rest

/-- The value of the last export of `n` in a sequence of (name, value) exports. -/
def lastValue (ops : List (Token × Token)) (n : Token) : Option Token :=
  ((ops.filter (fun p => p.1 = n)).getLast?).map Prod.snd

/-- The position at which `a` first appears in `l` (`l.length` when it does not). -/
def firstIndex (l : List Token) (a : Token) : Nat := l.findIdx (fun x => decide (x = a))

/-- What a table must satisfy to hold exactly the exports `ops`. -/
def Holds (ops : List (Token × Token)) (st : Store) : Prop :=
  (names st).Nodup ∧
  (∀ n, n ∈ names st ↔ n ∈ ops.map Prod.fst) ∧
  (names st).Pairwise
    (fun a b => firstIndex (ops.map Prod.fst) a < firstIndex (ops.map Prod.fst) b) ∧
  (∀ n v, (n, v) ∈ st → lastValue ops n = some v)

/-- A sample run: `export A=x`, `export B=y`, `export A=z`. -/
def sampleOps : List (Token × Token) :=
  [("A".toList, "x".toList), ("B".toList, "y".toList), ("A".toList, "z".toList)]

/-- What `echo $name` writes to stderr right after `export name=value`, when the export
returns. -/
def roundTrip (st : Store) (name value : Token) : Option (List Char) :=
  (lsh_export st ["export".toList, name ++ '=' :: value]).map
    (fun o => (lsh_echo o.store ["echo".toList, '$' :: name]).err)

/-- A full table: the result of `export A=1`, ..., `export E=5` on the empty table. -/
def fullStore : Store :=
  [("A".toList, "1".toList), ("B".toList, "2".toList), ("C".toList, "3".toList),
    ("D".toList, "4".toList), ("E".toList, "5".toList)]

/-- Six exports with six distinct names: `A=1`, ..., `E=5`, `F=6`. -/
def sixOps : List (Token × Token) := fullStore ++ [("F".toList, "6".toList)]

/-- The candidate value at the cursor (`ind_arg`, `ind_tmp`): the bytes of the current
token from the cursor on, followed by every later token, joined by single spaces. -/
def candidateValue (args : List Token) (ind_arg ind_tmp : Nat) : Token :=
  List.intercalate [' '] ((args.getD ind_arg []).drop ind_tmp :: args.drop (ind_arg + 1))

/-- One write to the table: the value of an existing row is overwritten, or one row is
appended. -/
def OneWrite (st st2 : Store) : Prop :=
  ∃ n v, (n ∉ names st ∧ st2 = st ++ [(n, v)]) ∨
    (∃ i, ∃ hi : i < st.length, st[i].1 = n ∧ st2 = st.set i (n, v))

/-- One line of the listing, as the specification words it:
`declare <name> = "<value>"` and a newline. -/
def listingLine (p : Token × Token) : List Char :=
  "declare ".toList ++ p.1 ++ " = \"".toList ++ p.2 ++ "\"\n".toList

/-- What `echo` prints for one token, as the specification words it: the token itself,
or for `$REQ` the value of the first row whose name has REQ as a prefix (nothing when
there is none). -/
def echoed (st : Store) : Token → List Char
  | '$' :: req => ((st.find? (fun e => decide (req <+: e.1))).map Prod.snd).getD []
  | t => t

/-- A host on which every system call succeeds. -/
def calmHost : Host := { chdirError := fun _ => none, forkError := none }

/-- The tokens of a line in the words of the specification: the line is cut at every
delimiter byte and the non-empty pieces are kept, in order. -/
def tokensOf (line : List Char) : List Token :=
  (line.splitOnP isDelim).filter (fun t => decide (t ≠ []))

/-- The value of `ind_tmp_value` when the value loop ends, no bound applied. -/
def valueLen : List Token → Nat → Nat → Nat → Nat
  | [], _, _, n => n
  | tok :: rest, ind_arg, ind_tmp, n =>
    if ind_arg > 1 && n > 0 then valueLen rest (ind_arg + 1) 0 (n + 1 + (tok.drop ind_tmp).length)
    else valueLen rest (ind_arg + 1) 0 (n + (tok.drop ind_tmp).length)

/-! ## Bytes, and the loops of `lsh_export` -/

theorem NUL_ne_eq : NUL ≠ '=' := by decide

theorem isLetter_NUL : isLetter NUL = false := by decide

theorem isLetter_ne_eq (c : Char) (h : isLetter c = true) : c ≠ '=' := by
  rintro rfl
  exact absurd h (by decide)

theorem charAt_lt (tok : Token) (i : Nat) (h : i < tok.length) : charAt tok i = tok[i] := by
  simp [charAt, List.getD, List.getElem?_eq_getElem h]

theorem charAt_ge (tok : Token) (i : Nat) (h : tok.length ≤ i) : charAt tok i = NUL := by
  simp [charAt, List.getD, List.getElem?_eq_none h]

theorem charAt_cons_zero (c : Char) (cs : Token) : charAt (c :: cs) 0 = c := rfl

theorem charAt_append_right (a b : Token) : charAt (a ++ b) a.length = charAt b 0 := by
  simp [charAt, List.getD, List.getElem?_append_right]

theorem charAt_zero_append (n t : Token) (h : 1 ≤ n.length) :
    charAt (n ++ t) 0 = charAt n 0 := by
  cases n with
  | nil => simp at h
  | cons c n => rfl

theorem drop_assign (n v : Token) : (n ++ '=' :: v).drop (n.length + 1) = v := by
  rw [← List.drop_drop, List.drop_left]
  rfl

theorem drop_of_getElem? (args : List Token) (k : Nat) (a : Token) (h : args[k]? = some a) :
    args.drop k = a :: args.drop (k + 1) ∧ args.getD k [] = a ∧ a ∈ args := by
  obtain ⟨hk, he⟩ := List.getElem?_eq_some.mp h
  refine ⟨?_, ?_, ?_⟩
  · rw [List.drop_eq_getElem_cons hk, he]
  · simp [List.getD, h]
  · rw [← he]; exact List.getElem_mem hk

theorem beforeEq_append (n v : Token) (h : '=' ∉ n) : beforeEq (n ++ '=' :: v) = n := by
  induction n with
  | nil => simp [beforeEq, List.takeWhile]
  | cons c n ih =>
    simp only [List.mem_cons, not_or] at h
    have hc : ¬ c = '=' := fun e => h.1 e.symm
    simp only [beforeEq, List.cons_append, List.takeWhile_cons, ne_eq, hc, not_false_eq_true,
      decide_True, ↓reduceIte, List.cons.injEq, true_and]
    exact ih h.2

theorem beforeEq_self (n : Token) (h : '=' ∉ n) : beforeEq n = n := by
  induction n with
  | nil => simp [beforeEq]
  | cons c n ih =>
    simp only [List.mem_cons, not_or] at h
    have hc : ¬ c = '=' := fun e => h.1 e.symm
    simp only [beforeEq, List.takeWhile_cons, ne_eq, hc, not_false_eq_true,
      decide_True, ↓reduceIte, List.cons.injEq, true_and]
    exact ih h.2

theorem beforeEq_length_pos (a1 : Token) (h : isLetter (charAt a1 0) = true) :
    1 ≤ ((beforeEq a1).take 10).length := by
  cases a1 with
  | nil => exact absurd h (by decide)
  | cons c cs =>
    have hc : ¬ c = '=' := isLetter_ne_eq c h
    simp [beforeEq, List.takeWhile_cons, hc]

theorem beforeEq_length_le (a : Token) : (beforeEq a).length ≤ a.length :=
  (List.takeWhile_sublist _).length_le

theorem charAt_beforeEq (a : Token) : ∀ i, i < (beforeEq a).length → charAt a i ≠ '=' := by
  induction a with
  | nil => intro i hi; simp [beforeEq] at hi
  | cons c cs ih =>
    intro i hi
    by_cases hc : c = '='
    · simp [beforeEq, List.takeWhile_cons, hc] at hi
    · cases i with
      | zero => simpa [charAt_cons_zero] using hc
      | succ i =>
        have hi2 : i < (beforeEq cs).length := by
          simpa [beforeEq, List.takeWhile_cons, hc] using hi
        have := ih i hi2
        simpa [charAt, List.getD] using this

theorem charAt_beforeEq_end (a : Token) (h : (beforeEq a).length < a.length) :
    charAt a (beforeEq a).length = '=' := by
  induction a with
  | nil => simp at h
  | cons c cs ih =>
    by_cases hc : c = '='
    · simp [beforeEq, List.takeWhile_cons, hc, charAt_cons_zero]
    · have h2 : (beforeEq cs).length < cs.length := by
        simpa [beforeEq, List.takeWhile_cons, hc] using h
      have := ih h2
      simpa [beforeEq, List.takeWhile_cons, hc, charAt, List.getD] using this

theorem nameLoop_spec (tok : Token) :
    ∀ (left i : Nat) (buf : List Char), i ≤ tok.length →
      nameLoop tok left i i buf =
        (i + ((beforeEq (tok.drop i)).take left).length,
          buf ++ (beforeEq (tok.drop i)).take left) := by
  intro left
  induction left with
  | zero => intro i buf _; simp [nameLoop]
  | succ left ih =>
    intro i buf hle
    rw [nameLoop]
    by_cases hi : i < tok.length
    · have hd : tok.drop i = tok[i] :: tok.drop (i + 1) := by
        rw [List.drop_eq_getElem_cons hi]
      rw [charAt_lt tok i hi]
      by_cases he : tok[i] = '='
      · rw [hd]; simp [he, beforeEq, List.takeWhile]
      · have hne : i ≠ tok.length := Nat.ne_of_lt hi
        simp only [he, hne, decide_False, Bool.or_self, Bool.false_eq_true, ↓reduceIte]
        rw [ih (i + 1) (buf ++ [tok[i]]) hi, hd]
        simp [beforeEq, List.takeWhile, he]
        omega
    · have hi2 : i = tok.length := by omega
      have hd : tok.drop i = [] := List.drop_eq_nil_of_le (by omega)
      rw [hd]
      simp [hi2, beforeEq]

theorem nameLoop_start (tok : Token) :
    nameLoop tok MAX_LENGTH_OF_VARIABLE_NAME 0 0 [] =
      (((beforeEq tok).take 10).length, (beforeEq tok).take 10) := by
  have h := nameLoop_spec tok MAX_LENGTH_OF_VARIABLE_NAME 0 [] (Nat.zero_le _)
  simpa [MAX_LENGTH_OF_VARIABLE_NAME] using h

theorem copyBytes_spec : ∀ (cs buf : List Char), buf.length ≤ 16 →
    copyBytes buf cs = if buf.length + cs.length ≤ 16 then some (buf ++ cs) else none := by
  intro cs
  induction cs with
  | nil => intro buf h; simp [copyBytes, h]
  | cons c cs ih =>
    intro buf h
    by_cases hlt : buf.length < 16
    · have hp : putValue buf c = some (buf ++ [c]) := by
        simp [putValue, MAX_LENGTH_OF_VARIABLE_VALUE, hlt]
      rw [copyBytes, hp]
      simp only
      rw [ih (buf ++ [c]) (by simp; omega)]
      simp [Nat.add_assoc, Nat.add_comm 1]
    · have hp : putValue buf c = none := by
        simp [putValue, MAX_LENGTH_OF_VARIABLE_VALUE, hlt]
      rw [copyBytes, hp]
      simp only
      rw [if_neg]
      simp; omega

theorem valueLoop_tail : ∀ (toks : List Token) (ind_arg : Nat) (buf : List Char),
    1 < ind_arg → buf ≠ [] → buf.length ≤ 16 →
    valueLoop toks ind_arg 0 buf =
      if buf.length + (spaced toks).length ≤ 16 then some (buf ++ spaced toks) else none := by
  intro toks
  induction toks with
  | nil => intro ia buf _ _ h; simp [valueLoop, spaced, h]
  | cons t toks ih =>
    intro ia buf hia hne hlen
    have hpos : 0 < buf.length := List.length_pos.mpr hne
    rw [valueLoop]
    simp only [hia, hpos, gt_iff_lt, decide_True, Bool.and_self, ↓reduceIte, List.drop_zero]
    have hsp : spaced (t :: toks) = ' ' :: t ++ spaced toks := by simp [spaced]
    by_cases hlt : buf.length < 16
    · have hp : putValue buf ' ' = some (buf ++ [' ']) := by
        simp [putValue, MAX_LENGTH_OF_VARIABLE_VALUE, hlt]
      rw [hp]
      simp only
      rw [copyBytes_spec t (buf ++ [' ']) (by simp; omega)]
      by_cases hfit : (buf ++ [' ']).length + t.length ≤ 16
      · rw [if_pos hfit]
        simp only
        rw [ih (ia + 1) (buf ++ [' '] ++ t) (by omega) (by simp) (by simp at hfit ⊢; omega), hsp]
        simp [Nat.add_assoc, Nat.add_comm 1]
      · rw [if_neg hfit]
        simp only
        rw [if_neg]
        rw [hsp]; simp at hfit ⊢; omega
    · have hp : putValue buf ' ' = none := by
        simp [putValue, MAX_LENGTH_OF_VARIABLE_VALUE, hlt]
      rw [hp]
      simp only
      rw [if_neg]
      rw [hsp]; simp; omega

theorem valueLoop_start (tok : Token) (rest : List Token) (ind_arg ind_tmp : Nat)
    (hia : 1 ≤ ind_arg) (hne : tok.drop ind_tmp ≠ []) :
    valueLoop (tok :: rest) ind_arg ind_tmp [] =
      if (tok.drop ind_tmp ++ spaced rest).length ≤ 16 then
        some (tok.drop ind_tmp ++ spaced rest) else none := by
  rw [valueLoop]
  simp only [List.length_nil, gt_iff_lt, Nat.lt_irrefl, decide_False, Bool.and_false,
    Bool.false_eq_true, ↓reduceIte]
  rw [copyBytes_spec (tok.drop ind_tmp) [] (by simp)]
  by_cases hfit : (tok.drop ind_tmp).length ≤ 16
  · have h1 : ([] : List Char).length + (tok.drop ind_tmp).length ≤ 16 := by simpa using hfit
    rw [if_pos h1]
    simp only [List.nil_append]
    rw [valueLoop_tail rest (ind_arg + 1) (tok.drop ind_tmp) (by omega) hne hfit]
    simp
  · have h1 : ¬ ([] : List Char).length + (tok.drop ind_tmp).length ≤ 16 := by simpa using hfit
    rw [if_neg h1]
    simp only
    rw [if_neg]
    simp at hfit ⊢; omega

theorem storeValue_spec (st : Store) (args : List Token) (name tok : Token)
    (rest : List Token) (ind_arg ind_tmp : Nat)
    (hia : 1 ≤ ind_arg) (hdrop : args.drop ind_arg = tok :: rest)
    (hne : tok.drop ind_tmp ≠ []) :
    storeValue st args name ind_arg ind_tmp =
      if (tok.drop ind_tmp ++ spaced rest).length ≤ 15 then
        some (commit st name (tok.drop ind_tmp ++ spaced rest)) else none := by
  rw [storeValue, hdrop, valueLoop_start tok rest ind_arg ind_tmp hia hne]
  by_cases h16 : (tok.drop ind_tmp ++ spaced rest).length ≤ 16
  · rw [if_pos h16]
    simp only [MAX_LENGTH_OF_VARIABLE_VALUE]
    by_cases h15 : (tok.drop ind_tmp ++ spaced rest).length ≤ 15
    · rw [if_pos h15, if_pos (by omega), if_neg (by omega)]
    · rw [if_neg h15, if_neg (by omega)]
  · rw [if_neg h16, if_neg (by omega)]

theorem storeValue_some (st : Store) (args : List Token) (name : Token) (ia it : Nat)
    (o : Outcome) (h : storeValue st args name ia it = some o) :
    ∃ v : Token, v.length ≤ 15 ∧ o = commit st name v := by
  unfold storeValue at h
  split at h
  · exact absurd h (by simp)
  · rename_i v _
    simp only [MAX_LENGTH_OF_VARIABLE_VALUE] at h
    split at h
    · split at h
      · omega
      · exact ⟨v, by omega, by injection h with h; exact h.symm⟩
    · exact absurd h (by simp)

theorem intercalate_space (first : Token) (rest : List Token) :
    List.intercalate [' '] (first :: rest) = first ++ spaced rest := by
  induction rest generalizing first with
  | nil => simp [List.intercalate, spaced]
  | cons t rest ih =>
    have h := ih t
    simp only [List.intercalate, List.intersperse, spaced, List.map_cons,
      List.flatten_cons] at h ⊢
    rw [h]
    simp

theorem listing_lines (st : Store) : listing st = (st.map listingLine).flatten := by
  induction st with
  | nil => rfl
  | cons p st ih =>
    obtain ⟨n, v⟩ := p
    simp only [listing, List.map_cons, List.flatten_cons, ih, listingLine]
    simp

/-! ## The commit: replace, append, or full table -/

theorem replaceLoop_flag (n v : Token) (st : Store) :
    (replaceLoop n v st).2 = true ↔ n ∈ names st := by
  induction st with
  | nil => simp [replaceLoop, names]
  | cons p st ih =>
    obtain ⟨a, b⟩ := p
    by_cases h : a = n
    · simp [replaceLoop, names, h]
    · have h2 : ¬ n = a := fun e => h e.symm
      simp only [replaceLoop, h, ↓reduceIte, ih]
      simp [names, h2]

theorem replaceLoop_names (n v : Token) (st : Store) :
    names (replaceLoop n v st).1 = names st := by
  induction st with
  | nil => simp [replaceLoop, names]
  | cons p st ih =>
    obtain ⟨a, b⟩ := p
    by_cases h : a = n
    · simp [replaceLoop, names, h]
    · simp only [replaceLoop, h, ↓reduceIte]
      simp only [names, List.map_cons] at ih ⊢
      rw [ih]

theorem replaceLoop_length (n v : Token) (st : Store) :
    (replaceLoop n v st).1.length = st.length := by
  have h := congrArg List.length (replaceLoop_names n v st)
  simpa [names] using h

theorem replaceLoop_absent (n v : Token) (st : Store) (h : n ∉ names st) :
    (replaceLoop n v st).1 = st := by
  induction st with
  | nil => simp [replaceLoop]
  | cons p st ih =>
    obtain ⟨a, b⟩ := p
    simp only [names, List.map_cons, List.mem_cons, not_or] at h
    have h1 : ¬ a = n := fun e => h.1 e.symm
    simp only [replaceLoop, h1, ↓reduceIte]
    rw [ih h.2]

theorem replaceLoop_mem (n v : Token) (st : Store) (p : Token × Token)
    (h : p ∈ (replaceLoop n v st).1) : p ∈ st ∨ p = (n, v) := by
  induction st with
  | nil => simp [replaceLoop] at h
  | cons q st ih =>
    obtain ⟨a, b⟩ := q
    by_cases h1 : a = n
    · simp only [replaceLoop, h1, ↓reduceIte, List.mem_cons] at h
      rcases h with h | h
      · exact Or.inr h
      · exact Or.inl (List.mem_cons_of_mem _ h)
    · simp only [replaceLoop, h1, ↓reduceIte, List.mem_cons] at h
      rcases h with h | h
      · exact Or.inl (by simp [h])
      · rcases ih h with h | h
        · exact Or.inl (List.mem_cons_of_mem _ h)
        · exact Or.inr h

theorem replaceLoop_mem_nodup (n v : Token) (st : Store) (p : Token × Token)
    (hnd : (names st).Nodup) (h : p ∈ (replaceLoop n v st).1) :
    (p ∈ st ∧ p.1 ≠ n) ∨ p = (n, v) := by
  induction st with
  | nil => simp [replaceLoop] at h
  | cons q st ih =>
    obtain ⟨a, b⟩ := q
    simp only [names, List.map_cons, List.nodup_cons] at hnd
    by_cases h1 : a = n
    · simp only [replaceLoop, h1, ↓reduceIte, List.mem_cons] at h
      rcases h with h | h
      · exact Or.inr h
      · refine Or.inl ⟨List.mem_cons_of_mem _ h, ?_⟩
        intro e
        apply hnd.1
        rw [h1, ← e]
        exact List.mem_map_of_mem Prod.fst h
    · simp only [replaceLoop, h1, ↓reduceIte, List.mem_cons] at h
      rcases h with h | h
      · subst h; exact Or.inl ⟨List.mem_cons_self _ _, h1⟩
      · rcases ih hnd.2 h with h | h
        · exact Or.inl ⟨List.mem_cons_of_mem _ h.1, h.2⟩
        · exact Or.inr h

theorem replaceLoop_has (n v : Token) (st : Store) (h : n ∈ names st) :
    (n, v) ∈ (replaceLoop n v st).1 := by
  induction st with
  | nil => simp [names] at h
  | cons p st ih =>
    obtain ⟨a, b⟩ := p
    by_cases h1 : a = n
    · simp [replaceLoop, h1]
    · have h2 : n ∈ names st := by
        simp only [names, List.map_cons, List.mem_cons] at h
        rcases h with e | e
        · exact absurd e.symm h1
        · exact e
      simp only [replaceLoop, h1, ↓reduceIte, List.mem_cons]
      exact Or.inr (ih h2)

theorem replaceLoop_set (n v : Token) :
    ∀ (st : Store) (i : Nat) (hi : i < st.length), st[i].1 = n →
      (∀ j (hj : j < st.length), j < i → st[j].1 ≠ n) →
      (replaceLoop n v st).1 = st.set i (n, v) := by
  intro st
  induction st with
  | nil => intro i hi; simp at hi
  | cons q st ih =>
    intro i hi hn hfirst
    obtain ⟨a, b⟩ := q
    cases i with
    | zero =>
      simp only [List.getElem_cons_zero] at hn
      simp [replaceLoop, hn]
    | succ i =>
      have h0 := hfirst 0 (by simp) (by omega)
      simp only [List.getElem_cons_zero] at h0
      simp only [replaceLoop, h0, ↓reduceIte, List.set_cons_succ]
      have hi2 : i < st.length := by simpa using hi
      rw [ih i hi2 (by simpa using hn)]
      intro j hj hji
      have := hfirst (j + 1) (by simpa using hj) (by omega)
      simpa using this

theorem replaceLoop_eq_set (n v : Token) (st : Store) (h : n ∈ names st) :
    ∃ i, ∃ hi : i < st.length, st[i].1 = n ∧ (replaceLoop n v st).1 = st.set i (n, v) := by
  induction st with
  | nil => simp [names] at h
  | cons p st ih =>
    obtain ⟨a, b⟩ := p
    by_cases h1 : a = n
    · exact ⟨0, by simp, by simpa using h1, by simp [replaceLoop, h1]⟩
    · have h2 : n ∈ names st := by
        simp only [names, List.map_cons, List.mem_cons] at h
        rcases h with e | e
        · exact absurd e.symm h1
        · exact e
      obtain ⟨i, hi, hrow, hset⟩ := ih h2
      refine ⟨i + 1, by simpa using hi, by simpa using hrow, ?_⟩
      simp only [replaceLoop, h1, ↓reduceIte, List.set_cons_succ, hset]

theorem nodup_first (st : Store) (i : Nat) (hi : i < st.length) (hnd : (names st).Nodup)
    (j : Nat) (hj : j < st.length) (hji : j < i) : st[j].1 ≠ st[i].1 := by
  intro e
  have hi2 : i < (names st).length := by simpa [names] using hi
  have hj2 : j < (names st).length := by simpa [names] using hj
  have h := (@List.Nodup.getElem_inj_iff _ (names st) hnd j hj2 i hi2).mp
    (by simpa [names] using e)
  omega

theorem commit_present (st : Store) (n v : Token) (h : n ∈ names st) :
    commit st n v = { store := (replaceLoop n v st).1, out := [], err := [], ret := 1 } := by
  rw [commit, if_pos ((replaceLoop_flag n v st).mpr h)]

theorem commit_append (st : Store) (n v : Token) (h : n ∉ names st)
    (hlen : st.length ≠ MAX_NUM_OF_VARIABLES) :
    commit st n v = { store := st ++ [(n, v)], out := [], err := [], ret := 1 } := by
  have hf : ¬ (replaceLoop n v st).2 = true := fun e => h ((replaceLoop_flag n v st).mp e)
  rw [commit, if_neg hf, if_neg hlen]

theorem commit_full (st : Store) (n v : Token) (h : n ∉ names st)
    (hlen : st.length = MAX_NUM_OF_VARIABLES) :
    commit st n v = diag st msgMaxVars := by
  have hf : ¬ (replaceLoop n v st).2 = true := fun e => h ((replaceLoop_flag n v st).mp e)
  rw [commit, if_neg hf, if_pos hlen]

theorem commit_err (st : Store) (n v : Token) :
    (commit st n v).err = [] ∨ (commit st n v).err = msgMaxVars := by
  unfold commit
  split
  · exact Or.inl rfl
  · split
    · exact Or.inr rfl
    · exact Or.inl rfl

theorem commit_out_ret (st : Store) (n v : Token) :
    (commit st n v).out = [] ∧ (commit st n v).ret = 1 := by
  unfold commit
  split
  · exact ⟨rfl, rfl⟩
  · split
    · exact ⟨rfl, rfl⟩
    · exact ⟨rfl, rfl⟩

theorem commit_cases (st : Store) (n v : Token) :
    ((commit st n v).err = [] ∧ OneWrite st (commit st n v).store) ∨
    ((commit st n v).err = msgMaxVars ∧ (commit st n v).store = st) := by
  by_cases hmem : n ∈ names st
  · rw [commit_present st n v hmem]
    exact Or.inl ⟨rfl, n, v, Or.inr (replaceLoop_eq_set n v st hmem)⟩
  · by_cases hfull : st.length = MAX_NUM_OF_VARIABLES
    · rw [commit_full st n v hmem hfull]
      exact Or.inr ⟨rfl, rfl⟩
    · rw [commit_append st n v hmem hfull]
      exact Or.inl ⟨rfl, n, v, Or.inl ⟨hmem, rfl⟩⟩

/-! ## Name parsing -/

theorem parseName_assign (args : List Token) (n v : Token) (hn : ValidName n) (hv : v ≠ []) :
    parseName args (n ++ '=' :: v) = .cursor n 1 (n.length + 1) := by
  obtain ⟨h1, h10, hl, he⟩ := hn
  have hlen : (n ++ '=' :: v).length = n.length + 1 + v.length := by simp; omega
  have hvl : 0 < v.length := List.length_pos.mpr hv
  have hc : charAt (n ++ '=' :: v) n.length = '=' := by
    rw [charAt_append_right]; rfl
  rw [parseName, charAt_zero_append n _ h1, hl, nameLoop_start, beforeEq_append n v he]
  have ht : n.take 10 = n := List.take_of_length_le h10
  simp only [Bool.not_true, Bool.false_eq_true, ↓reduceIte, ht]
  rw [if_pos (by omega), if_neg (by simp [hc]), if_neg (by omega)]

theorem parseName_trailing_eq (args : List Token) (n a2 : Token) (hn : ValidName n)
    (h2 : args[2]? = some a2) :
    parseName args (n ++ ['=']) = .cursor n 2 0 := by
  obtain ⟨h1, h10, hl, he⟩ := hn
  have hc : charAt (n ++ ['=']) n.length = '=' := by
    rw [charAt_append_right]; rfl
  rw [parseName, charAt_zero_append n _ h1, hl, nameLoop_start, beforeEq_append n [] he]
  have ht : n.take 10 = n := List.take_of_length_le h10
  simp only [Bool.not_true, Bool.false_eq_true, ↓reduceIte, ht]
  rw [if_pos (by simp), if_neg (by simp [hc]), if_pos (by simp), h2]

theorem parseName_bare (args : List Token) (n : Token) (hn : ValidName n) :
    parseName args n =
      match args[2]? with
      | none => .fail msgMoreArgs
      | some a2 =>
        if a2.length = 1 && charAt a2 0 = '=' then
          match args[3]? with
          | none => .fail msgMoreArgs
          | some _ => .cursor n 3 0
        else if charAt a2 0 = '=' then .cursor n 2 1
        else .cursor n 2 0 := by
  obtain ⟨h1, h10, hl, he⟩ := hn
  rw [parseName, hl, nameLoop_start, beforeEq_self n he]
  have ht : n.take 10 = n := List.take_of_length_le h10
  simp only [Bool.not_true, Bool.false_eq_true, ↓reduceIte, ht]
  rw [if_neg (by omega)]

theorem parseName_name_length (args : List Token) (a1 name : Token) (ia it : Nat)
    (h : parseName args a1 = .cursor name ia it) :
    1 ≤ name.length ∧ name.length ≤ 10 := by
  unfold parseName at h
  by_cases hl : isLetter (charAt a1 0) = true
  · have h1 := beforeEq_length_pos a1 hl
    have h2 : ((beforeEq a1).take 10).length ≤ 10 := by simp
    rw [nameLoop_start] at h
    simp only [hl, Bool.not_true, Bool.false_eq_true, ↓reduceIte] at h
    split at h
    · split at h
      · exact absurd h (by simp)
      · split at h
        · split at h
          · exact absurd h (by simp)
          · injection h with hn _ _; subst hn; exact ⟨h1, h2⟩
        · injection h with hn _ _; subst hn; exact ⟨h1, h2⟩
    · split at h
      · exact absurd h (by simp)
      · split at h
        · split at h
          · exact absurd h (by simp)
          · injection h with hn _ _; subst hn; exact ⟨h1, h2⟩
        · split at h
          · injection h with hn _ _; subst hn; exact ⟨h1, h2⟩
          · injection h with hn _ _; subst hn; exact ⟨h1, h2⟩
  · simp [hl] at h

theorem parseName_long (args : List Token) (a1 : Token)
    (hl : isLetter (charAt a1 0) = true) (hlong : 10 < (beforeEq a1).length) :
    parseName args a1 = .fail msgNameLimit := by
  have hle := beforeEq_length_le a1
  have htake : ((beforeEq a1).take 10).length = 10 := by
    rw [List.length_take]; omega
  have hc := charAt_beforeEq a1 10 hlong
  rw [parseName, nameLoop_start]
  simp only [hl, Bool.not_true, Bool.false_eq_true, ↓reduceIte, htake]
  rw [if_pos (by omega), if_pos hc]

theorem parseName_short (args : List Token) (a1 : Token)
    (hl : isLetter (charAt a1 0) = true) (hshort : (beforeEq a1).length ≤ 10) :
    parseName args a1 = .fail msgMoreArgs ∨
      ∃ ia it, parseName args a1 = .cursor (beforeEq a1) ia it := by
  have htake : (beforeEq a1).take 10 = beforeEq a1 := List.take_of_length_le hshort
  rw [parseName, nameLoop_start]
  simp only [hl, Bool.not_true, Bool.false_eq_true, ↓reduceIte, htake]
  split
  · rename_i hlt
    have hc := charAt_beforeEq_end a1 hlt
    simp only [hc, ne_eq, not_true_eq_false, ↓reduceIte]
    split
    · split
      · exact Or.inl rfl
      · exact Or.inr ⟨_, _, rfl⟩
    · exact Or.inr ⟨_, _, rfl⟩
  · split
    · exact Or.inl rfl
    · split
      · split
        · exact Or.inl rfl
        · exact Or.inr ⟨_, _, rfl⟩
      · split
        · exact Or.inr ⟨_, _, rfl⟩
        · exact Or.inr ⟨_, _, rfl⟩

theorem parseName_fail (args : List Token) (a1 : Token) (msg : List Char)
    (h : parseName args a1 = .fail msg) :
    msg = msgFirstLetter ∨ msg = msgNameLimit ∨ msg = msgMoreArgs := by
  unfold parseName at h
  split at h
  · injection h with h; exact Or.inl h.symm
  · simp only at h
    split at h
    · split at h
      · injection h with h; exact Or.inr (Or.inl h.symm)
      · split at h
        · split at h
          · injection h with h; exact Or.inr (Or.inr h.symm)
          · exact absurd h (by simp)
        · exact absurd h (by simp)
    · split at h
      · injection h with h; exact Or.inr (Or.inr h.symm)
      · split at h
        · split at h
          · injection h with h; exact Or.inr (Or.inr h.symm)
          · exact absurd h (by simp)
        · split at h
          · exact absurd h (by simp)
          · exact absurd h (by simp)

theorem parseName_cursor (args : List Token) (a1 name : Token) (ia it : Nat)
    (h1 : args[1]? = some a1) (hne : ∀ t ∈ args, t ≠ [])
    (h : parseName args a1 = .cursor name ia it) :
    1 ≤ ia ∧ ∃ tok rest, args.drop ia = tok :: rest ∧ args.getD ia [] = tok ∧
      tok.drop it ≠ [] := by
  unfold parseName at h
  by_cases hl : isLetter (charAt a1 0) = true
  · rw [nameLoop_start] at h
    simp only [hl, Bool.not_true, Bool.false_eq_true, ↓reduceIte] at h
    split at h
    · rename_i hlt
      split at h
      · exact absurd h (by simp)
      · split at h
        · split at h
          · exact absurd h (by simp)
          · rename_i a2 h2
            injection h with _ e1 e2; subst e1; subst e2
            obtain ⟨hd, hg, hm⟩ := drop_of_getElem? args 2 a2 h2
            exact ⟨by omega, a2, _, hd, hg, by simpa using hne a2 hm⟩
        · rename_i hnl
          injection h with _ e1 e2; subst e1; subst e2
          obtain ⟨hd, hg, _⟩ := drop_of_getElem? args 1 a1 h1
          refine ⟨Nat.le_refl 1, a1, _, hd, hg, ?_⟩
          intro e
          have := congrArg List.length e
          simp only [List.length_drop, List.length_nil] at this
          omega
    · split at h
      · exact absurd h (by simp)
      · rename_i a2 h2
        obtain ⟨hd, hg, hm⟩ := drop_of_getElem? args 2 a2 h2
        have ha2 : a2 ≠ [] := hne a2 hm
        split at h
        · split at h
          · exact absurd h (by simp)
          · rename_i a3 h3
            injection h with _ e1 e2; subst e1; subst e2
            obtain ⟨hd3, hg3, hm3⟩ := drop_of_getElem? args 3 a3 h3
            exact ⟨by omega, a3, _, hd3, hg3, by simpa using hne a3 hm3⟩
        · rename_i hsole
          split at h
          · rename_i heq
            injection h with _ e1 e2; subst e1; subst e2
            refine ⟨by omega, a2, _, hd, hg, ?_⟩
            intro e
            have hlen := congrArg List.length e
            have hpos := List.length_pos.mpr ha2
            simp only [List.length_drop, List.length_nil] at hlen
            apply hsole
            simp only [Bool.and_eq_true, decide_eq_true_eq]
            exact ⟨by omega, heq⟩
          · injection h with _ e1 e2; subst e1; subst e2
            exact ⟨by omega, a2, _, hd, hg, by simpa using ha2⟩
  · simp [hl] at h

/-! ## Outcomes of `lsh_export` -/

theorem export_alone (st : Store) (cmd : Token) :
    lsh_export st [cmd] = some { store := st, out := listing st, err := [], ret := 1 } := by
  have e1 : ([cmd] : List Token)[1]? = none := by simp
  rw [lsh_export, e1]

theorem export_joined (st : Store) (cmd n v1 : Token) (vs : List Token)
    (hn : ValidName n) (hv : v1 ≠ []) :
    lsh_export st (cmd :: (n ++ '=' :: v1) :: vs) =
      if (v1 ++ spaced vs).length ≤ 15 then some (commit st n (v1 ++ spaced vs)) else none := by
  have h1 : (cmd :: (n ++ '=' :: v1) :: vs)[1]? = some (n ++ '=' :: v1) := by simp
  rw [lsh_export, h1]
  simp only
  rw [parseName_assign _ n v1 hn hv]
  simp only
  have h := storeValue_spec st (cmd :: (n ++ '=' :: v1) :: vs) n (n ++ '=' :: v1) vs 1
    (n.length + 1) (Nat.le_refl 1) rfl (by rw [drop_assign]; exact hv)
  rw [drop_assign] at h
  exact h

theorem export_trailing_eq (st : Store) (cmd n v1 : Token) (vs : List Token)
    (hn : ValidName n) (hv : v1 ≠ []) :
    lsh_export st (cmd :: (n ++ ['=']) :: v1 :: vs) =
      if (v1 ++ spaced vs).length ≤ 15 then some (commit st n (v1 ++ spaced vs)) else none := by
  have h1 : (cmd :: (n ++ ['=']) :: v1 :: vs)[1]? = some (n ++ ['=']) := by simp
  rw [lsh_export, h1]
  simp only
  rw [parseName_trailing_eq _ n v1 hn (by simp)]
  simp only
  exact storeValue_spec st _ n v1 vs 2 0 (by omega) rfl (by simpa using hv)

theorem export_lone_eq (st : Store) (cmd n v1 : Token) (vs : List Token)
    (hn : ValidName n) (hv : v1 ≠ []) :
    lsh_export st (cmd :: n :: ['='] :: v1 :: vs) =
      if (v1 ++ spaced vs).length ≤ 15 then some (commit st n (v1 ++ spaced vs)) else none := by
  have h1 : (cmd :: n :: ['='] :: v1 :: vs)[1]? = some n := by simp
  have h2 : (cmd :: n :: ['='] :: v1 :: vs)[2]? = some ['='] := by simp
  have h3 : (cmd :: n :: ['='] :: v1 :: vs)[3]? = some v1 := by simp
  rw [lsh_export, h1]
  simp only
  rw [parseName_bare _ n hn, h2]
  simp only [List.length_singleton, charAt_cons_zero, decide_True, Bool.and_self, ↓reduceIte, h3]
  exact storeValue_spec st _ n v1 vs 3 0 (by omega) rfl (by simpa using hv)

theorem export_leading_eq (st : Store) (cmd n v1 : Token) (vs : List Token)
    (hn : ValidName n) (hv : v1 ≠ []) :
    lsh_export st (cmd :: n :: ('=' :: v1) :: vs) =
      if (v1 ++ spaced vs).length ≤ 15 then some (commit st n (v1 ++ spaced vs)) else none := by
  have h1 : (cmd :: n :: ('=' :: v1) :: vs)[1]? = some n := by simp
  have h2 : (cmd :: n :: ('=' :: v1) :: vs)[2]? = some ('=' :: v1) := by simp
  have hl : ¬ ('=' :: v1).length = 1 := by
    intro h
    simp at h
    exact hv h
  rw [lsh_export, h1]
  simp only
  rw [parseName_bare _ n hn, h2]
  simp only [hl, charAt_cons_zero, decide_True, decide_False, Bool.false_and,
    Bool.false_eq_true, ↓reduceIte]
  exact storeValue_spec st _ n ('=' :: v1) vs 2 1 (by omega) rfl (by simpa using hv)

theorem export_bare_plain (st : Store) (cmd n v1 : Token) (vs : List Token)
    (hn : ValidName n) (hv : v1 ≠ []) (hf : charAt v1 0 ≠ '=') :
    lsh_export st (cmd :: n :: v1 :: vs) =
      if (v1 ++ spaced vs).length ≤ 15 then some (commit st n (v1 ++ spaced vs)) else none := by
  have h1 : (cmd :: n :: v1 :: vs)[1]? = some n := by simp
  have h2 : (cmd :: n :: v1 :: vs)[2]? = some v1 := by simp
  rw [lsh_export, h1]
  simp only
  rw [parseName_bare _ n hn, h2]
  simp only [hf, decide_False, Bool.and_false, Bool.false_eq_true, ↓reduceIte]
  exact storeValue_spec st _ n v1 vs 2 0 (by omega) rfl (by simpa using hv)

theorem export_assign (st : Store) (cmd n v : Token) (hn : ValidName n) (hv : ValidValue v) :
    lsh_export st [cmd, n ++ '=' :: v] = some (commit st n v) := by
  have hne : v ≠ [] := List.length_pos.mp hv.1
  rw [export_joined st cmd n v [] hn hne]
  simp [spaced, hv.2]

theorem export_overrun (st : Store) (cmd n v : Token) (hn : ValidName n)
    (hv : 15 < v.length) : lsh_export st [cmd, n ++ '=' :: v] = none := by
  have hne : v ≠ [] := by
    intro e; subst e; simp at hv
  rw [export_joined st cmd n v [] hn hne, if_neg]
  simp only [spaced, List.map_nil, List.flatten_nil, List.append_nil]
  omega

theorem export_runs_out (st : Store) (cmd n : Token) (hn : ValidName n) :
    lsh_export st [cmd, n] = some (diag st msgMoreArgs) ∧
    lsh_export st [cmd, n ++ ['=']] = some (diag st msgMoreArgs) ∧
    lsh_export st [cmd, n, ['=']] = some (diag st msgMoreArgs) := by
  obtain ⟨h1, h10, hl, he⟩ := hn
  have hn : ValidName n := ⟨h1, h10, hl, he⟩
  refine ⟨?_, ?_, ?_⟩
  · have e1 : ([cmd, n] : List Token)[1]? = some n := by simp
    have e2 : ([cmd, n] : List Token)[2]? = none := by simp
    rw [lsh_export, e1]
    simp only
    rw [parseName_bare _ n hn, e2]
  · have e1 : ([cmd, n ++ ['=']] : List Token)[1]? = some (n ++ ['=']) := by simp
    have e2 : ([cmd, n ++ ['=']] : List Token)[2]? = none := by simp
    have hc : charAt (n ++ ['=']) n.length = '=' := by
      rw [charAt_append_right]; rfl
    have ht : n.take 10 = n := List.take_of_length_le h10
    rw [lsh_export, e1]
    simp only
    rw [parseName, charAt_zero_append n _ h1, hl, nameLoop_start, beforeEq_append n [] he]
    simp only [Bool.not_true, Bool.false_eq_true, ↓reduceIte, ht]
    rw [if_pos (by simp), if_neg (by simp [hc]), if_pos (by simp), e2]
  · have e1 : ([cmd, n, ['=']] : List Token)[1]? = some n := by simp
    have e2 : ([cmd, n, ['=']] : List Token)[2]? = some ['='] := by simp
    have e3 : ([cmd, n, ['=']] : List Token)[3]? = none := by simp
    rw [lsh_export, e1]
    simp only
    rw [parseName_bare _ n hn, e2]
    simp only [List.length_singleton, charAt_cons_zero, decide_True, Bool.and_self, ↓reduceIte,
      e3]

theorem export_value_rule (st : Store) (args : List Token) (a1 name : Token) (ia it : Nat)
    (h1 : args[1]? = some a1) (hne : ∀ t ∈ args, t ≠ [])
    (h : parseName args a1 = .cursor name ia it) :
    lsh_export st args =
      if (candidateValue args ia it).length ≤ 15 then
        some (commit st name (candidateValue args ia it))
      else none := by
  obtain ⟨hia, tok, rest, hd, hg, hnn⟩ := parseName_cursor args a1 name ia it h1 hne h
  have hrest : args.drop (ia + 1) = rest := by
    have := congrArg (List.drop 1) hd
    simpa [List.drop_drop, Nat.add_comm] using this
  rw [lsh_export, h1]
  simp only
  rw [h]
  simp only
  rw [candidateValue, hg, hrest, intercalate_space]
  exact storeValue_spec st args name tok rest ia it hia hd hnn

theorem export_ret (st : Store) (args : List Token) (o : Outcome)
    (h : lsh_export st args = some o) : o.ret = 1 := by
  unfold lsh_export at h
  split at h
  · injection h with h; subst h; rfl
  · split at h
    · injection h with h; subst h; rfl
    · rename_i name ia it _
      obtain ⟨v, _, ho⟩ := storeValue_some st args name ia it o h
      rw [ho]
      exact (commit_out_ret st name v).2

theorem candidateValue_pos (args : List Token) (a1 name : Token) (ia it : Nat)
    (h1 : args[1]? = some a1) (hne : ∀ t ∈ args, t ≠ [])
    (h : parseName args a1 = .cursor name ia it) :
    1 ≤ (candidateValue args ia it).length := by
  obtain ⟨_, tok, rest, _, hg, hnn⟩ := parseName_cursor args a1 name ia it h1 hne h
  rw [candidateValue, hg, intercalate_space, List.length_append]
  have := List.length_pos.mpr hnn
  omega

theorem export_values_pos (st : Store) (args : List Token) (o : Outcome)
    (hne : ∀ t ∈ args, t ≠ []) (hst : ∀ p ∈ st, 1 ≤ p.2.length)
    (h : lsh_export st args = some o) : ∀ p ∈ o.store, 1 ≤ p.2.length := by
  cases h1 : args[1]? with
  | none =>
    rw [lsh_export, h1] at h
    injection h with h; subst h; exact hst
  | some a1 =>
    cases hp : parseName args a1 with
    | fail msg =>
      rw [lsh_export, h1] at h
      simp only at h
      rw [hp] at h
      injection h with h; subst h; exact hst
    | cursor name ia it =>
      rw [export_value_rule st args a1 name ia it h1 hne hp] at h
      split at h
      · injection h with h
        subst h
        intro p hp2
        have hpos := candidateValue_pos args a1 name ia it h1 hne hp
        by_cases hmem : name ∈ names st
        · rw [commit_present st name _ hmem] at hp2
          rcases replaceLoop_mem name _ st p hp2 with h | h
          · exact hst p h
          · subst h; exact hpos
        · by_cases hfull : st.length = MAX_NUM_OF_VARIABLES
          · rw [commit_full st name _ hmem hfull] at hp2
            exact hst p hp2
          · rw [commit_append st name _ hmem hfull] at hp2
            simp only [List.mem_append, List.mem_singleton] at hp2
            rcases hp2 with h | h
            · exact hst p h
            · subst h; exact hpos
      · exact absurd h (by simp)

/-! ## The table invariant -/

theorem commit_wellFormed (st : Store) (n v : Token) (hst : WellFormed st)
    (hn1 : 1 ≤ n.length) (hn2 : n.length ≤ 10) (hv : v.length ≤ 15) :
    WellFormed (commit st n v).store := by
  obtain ⟨hlen, hent, hnd⟩ := hst
  by_cases hmem : n ∈ names st
  · rw [commit_present st n v hmem]
    refine ⟨by simpa [replaceLoop_length] using hlen, ?_, by simpa [replaceLoop_names] using hnd⟩
    intro p hp
    rcases replaceLoop_mem n v st p hp with hp | hp
    · exact hent p hp
    · subst hp; exact ⟨hn1, hn2, hv⟩
  · by_cases hfull : st.length = MAX_NUM_OF_VARIABLES
    · rw [commit_full st n v hmem hfull]
      exact ⟨hlen, hent, hnd⟩
    · rw [commit_append st n v hmem hfull]
      refine ⟨?_, ?_, ?_⟩
      · simp only [MAX_NUM_OF_VARIABLES] at hfull
        simp only [List.length_append, List.length_singleton]
        omega
      · intro p hp
        simp only [List.mem_append, List.mem_singleton] at hp
        rcases hp with hp | hp
        · exact hent p hp
        · subst hp; exact ⟨hn1, hn2, hv⟩
      · simp only [names, List.map_append, List.map_cons, List.map_nil]
        rw [List.nodup_append]
        refine ⟨hnd, by simp, ?_⟩
        intro a ha hb
        simp only [List.mem_singleton] at hb
        subst hb
        exact hmem ha

theorem export_wellFormed (st : Store) (args : List Token) (o : Outcome)
    (hst : WellFormed st) (h : lsh_export st args = some o) : WellFormed o.store := by
  unfold lsh_export at h
  split at h
  · injection h with h; subst h; exact hst
  · rename_i a1 _
    split at h
    · injection h with h; subst h; exact hst
    · rename_i name ia it hp
      obtain ⟨v, hv, ho⟩ := storeValue_some st args name ia it o h
      obtain ⟨h1, h2⟩ := parseName_name_length args a1 name ia it hp
      subst ho
      exact commit_wellFormed st name v hst h1 h2 hv

theorem echo_store (st : Store) (args : List Token) : (lsh_echo st args).store = st := by
  unfold lsh_echo
  split <;> rfl

theorem reachable_wf (st : Store) (h : Reachable st) : WellFormed st := by
  induction h with
  | empty => exact ⟨by simp, by simp, by simp [names]⟩
  | byExport st args o _ _ hex ih => exact export_wellFormed st args o ih hex
  | byEcho st args _ _ ih => rw [echo_store]; exact ih

theorem reachable_values_pos (st : Store) (h : Reachable st) : ∀ p ∈ st, 1 ≤ p.2.length := by
  induction h with
  | empty => simp
  | byExport st args o _ hne hex ih => exact export_values_pos st args o hne ih hex
  | byEcho st args _ _ ih => rw [echo_store]; exact ih

/-! ## Sequences of exports -/

theorem runExports_valid (ops : List (Token × Token))
    (hv : ∀ p ∈ ops, ValidName p.1 ∧ ValidValue p.2) (st : Store) :
    runExports st (ops.map exportCmd) =
      some (ops.foldl (fun s p => (commit s p.1 p.2).store) st) := by
  induction ops generalizing st with
  | nil => rfl
  | cons p ops ih =>
    have hp := hv p (List.mem_cons_self _ _)
    simp only [List.map_cons, runExports, List.foldl_cons]
    rw [show exportCmd p = ["export".toList, p.1 ++ '=' :: p.2] from rfl,
      export_assign st _ p.1 p.2 hp.1 hp.2]
    exact ih (fun q hq => hv q (List.mem_cons_of_mem _ hq)) _

theorem runExports_append (a b : List (List Token)) :
    ∀ s : Store, runExports s (a ++ b) = (runExports s a).bind (fun t => runExports t b) := by
  induction a with
  | nil => intro s; rfl
  | cons c a ih =>
    intro s
    simp only [List.cons_append, runExports]
    cases lsh_export s c with
    | none => rfl
    | some o => exact ih o.store

theorem reachable_runExports (cmds : List (List Token)) :
    ∀ (st st2 : Store), Reachable st → (∀ args ∈ cmds, ∀ t ∈ args, t ≠ []) →
      runExports st cmds = some st2 → Reachable st2 := by
  induction cmds with
  | nil =>
    intro st st2 hr _ h
    simp only [runExports, Option.some.injEq] at h
    subst h; exact hr
  | cons args cmds ih =>
    intro st st2 hr hne h
    rw [runExports] at h
    split at h
    · exact absurd h (by simp)
    · rename_i o ho
      exact ih o.store st2
        (Reachable.byExport st args o hr (hne args (List.mem_cons_self _ _)) ho)
        (fun a ha => hne a (List.mem_cons_of_mem _ ha)) h

theorem fullStore_reachable : Reachable fullStore :=
  reachable_runExports (fullStore.map exportCmd) [] fullStore Reachable.empty
    (by decide) (by decide)

theorem lastValue_snoc (ops : List (Token × Token)) (n v m : Token) :
    lastValue (ops ++ [(n, v)]) m = if n = m then some v else lastValue ops m := by
  unfold lastValue
  by_cases h : n = m
  · simp [List.filter_append, h, List.getLast?_concat]
  · simp [List.filter_append, h]

theorem firstIndex_lt (l : List Token) (a : Token) (h : a ∈ l) : firstIndex l a < l.length :=
  List.findIdx_lt_length_of_exists ⟨a, h, by simp⟩

theorem firstIndex_append_mem (l m : List Token) (a : Token) (h : a ∈ l) :
    firstIndex (l ++ m) a = firstIndex l a := by
  have := firstIndex_lt l a h
  unfold firstIndex at this ⊢
  rw [List.findIdx_append, if_pos this]

theorem firstIndex_append_new (l : List Token) (a : Token) (h : a ∉ l) :
    firstIndex (l ++ [a]) a = l.length := by
  have h1 : l.findIdx (fun x => decide (x = a)) = l.length := by
    apply List.findIdx_eq_length_of_false
    intro x hx
    simp only [decide_eq_false_iff_not]
    intro e; subst e; exact h hx
  unfold firstIndex
  rw [List.findIdx_append, h1, if_neg (Nat.lt_irrefl _)]
  simp [List.findIdx_cons]

theorem holds_length (ops : List (Token × Token)) (st : Store) (h : Holds ops st) :
    st.length = (ops.map Prod.fst).toFinset.card := by
  obtain ⟨hnd, hmem, _, _⟩ := h
  have h1 : (names st).toFinset = (ops.map Prod.fst).toFinset := by
    ext n; simp only [List.mem_toFinset]; exact hmem n
  rw [← h1, List.toFinset_card_of_nodup hnd]
  simp [names]

theorem holds_step (ops : List (Token × Token)) (st : Store) (n v : Token)
    (h : Holds ops st) (hcard : ((ops ++ [(n, v)]).map Prod.fst).toFinset.card ≤ 5) :
    Holds (ops ++ [(n, v)]) (commit st n v).store := by
  have hlen := holds_length ops st h
  obtain ⟨hnd, hmem, hord, hval⟩ := h
  have hmap : (ops ++ [(n, v)]).map Prod.fst = ops.map Prod.fst ++ [n] := by simp
  rw [hmap] at hcard
  have hord2 : (names st).Pairwise (fun a b =>
      firstIndex (ops.map Prod.fst ++ [n]) a < firstIndex (ops.map Prod.fst ++ [n]) b) := by
    refine List.Pairwise.imp_of_mem ?_ hord
    intro a b ha hb hab
    rw [firstIndex_append_mem _ _ a ((hmem a).mp ha), firstIndex_append_mem _ _ b ((hmem b).mp hb)]
    exact hab
  by_cases hin : n ∈ names st
  · rw [commit_present st n v hin]
    refine ⟨by simpa [replaceLoop_names] using hnd, ?_, ?_, ?_⟩
    · intro m
      rw [replaceLoop_names, hmap, List.mem_append, List.mem_singleton, hmem m]
      constructor
      · exact Or.inl
      · rintro (hm | hm)
        · exact hm
        · subst hm; exact (hmem m).mp hin
    · rw [replaceLoop_names, hmap]; exact hord2
    · intro m w hmw
      rw [lastValue_snoc]
      rcases replaceLoop_mem_nodup n v st (m, w) hnd hmw with ⟨hm, hne⟩ | heq
      · rw [if_neg (fun e => hne e.symm)]
        exact hval m w hm
      · injection heq with e1 e2
        subst e1; subst e2; simp
  · have hnotin : n ∉ ops.map Prod.fst := fun e => hin ((hmem n).mpr e)
    have hc : (ops.map Prod.fst ++ [n]).toFinset.card = st.length + 1 := by
      rw [hlen, List.toFinset_append, List.toFinset_cons, List.toFinset_nil,
        Finset.card_union_of_disjoint]
      · simp
      · simp [hnotin]
    have hfull : st.length ≠ MAX_NUM_OF_VARIABLES := by
      simp only [MAX_NUM_OF_VARIABLES]; omega
    rw [commit_append st n v hin hfull]
    have hn : names (st ++ [(n, v)]) = names st ++ [n] := by simp [names]
    refine ⟨?_, ?_, ?_, ?_⟩
    · rw [hn, List.nodup_append]
      refine ⟨hnd, by simp, ?_⟩
      intro a ha hb
      simp only [List.mem_singleton] at hb
      subst hb; exact hin ha
    · intro m
      rw [hn, hmap, List.mem_append, List.mem_append, hmem m]
    · rw [hn, hmap, List.pairwise_append]
      refine ⟨hord2, by simp, ?_⟩
      intro a ha b hb
      simp only [List.mem_singleton] at hb
      subst hb
      rw [firstIndex_append_mem _ _ a ((hmem a).mp ha), firstIndex_append_new _ _ hnotin]
      exact firstIndex_lt _ a ((hmem a).mp ha)
    · intro m w hmw
      rw [lastValue_snoc]
      simp only [List.mem_append, List.mem_singleton] at hmw
      rcases hmw with hm | heq
      · have hmn : m ∈ names st := List.mem_map_of_mem Prod.fst hm
        have hne : ¬ n = m := fun e => hin (e ▸ hmn)
        rw [if_neg hne]
        exact hval m w hm
      · injection heq with e1 e2
        subst e1; subst e2; simp

theorem holds_foldl (ops : List (Token × Token))
    (hcard : (ops.map Prod.fst).toFinset.card ≤ 5) :
    Holds ops (ops.foldl (fun s p => (commit s p.1 p.2).store) []) := by
  induction ops using List.reverseRecOn with
  | nil => exact ⟨by simp [names], by simp [names], by simp [names], by simp⟩
  | append_singleton ops p ih =>
    obtain ⟨n, v⟩ := p
    rw [List.foldl_append]
    simp only [List.foldl_cons, List.foldl_nil]
    apply holds_step ops _ n v _ hcard
    apply ih
    refine le_trans (Finset.card_le_card ?_) hcard
    intro a ha
    simp only [List.mem_toFinset, List.map_append, List.mem_append] at ha ⊢
    exact Or.inl ha

theorem foldl_commit_distinct (ops : List (Token × Token)) :
    ∀ st : Store, (names (st ++ ops)).Nodup → (st ++ ops).length ≤ 5 →
      ops.foldl (fun s p => (commit s p.1 p.2).store) st = st ++ ops := by
  induction ops with
  | nil => intro st _ _; simp
  | cons p ops ih =>
    intro st hnd hlen
    obtain ⟨n, v⟩ := p
    have hnd2 : (names st ++ n :: names ops).Nodup := by simpa [names] using hnd
    have hn : n ∉ names st := by
      intro hin
      have := (List.nodup_append.mp hnd2).2.2
      exact this hin (List.mem_cons_self _ _)
    have hl : st.length ≠ MAX_NUM_OF_VARIABLES := by
      simp only [List.length_append, List.length_cons] at hlen
      simp only [MAX_NUM_OF_VARIABLES]; omega
    simp only [List.foldl_cons]
    rw [commit_append st n v hn hl]
    simp only
    have e : st ++ (n, v) :: ops = (st ++ [(n, v)]) ++ ops := by simp
    rw [e] at hnd hlen ⊢
    exact ih (st ++ [(n, v)]) hnd hlen

/-! ## The lookup and the output of `echo` -/

theorem scanName_iff (name req : List Char) : scanName name req = true ↔ req <+: name := by
  induction name generalizing req with
  | nil =>
    cases req with
    | nil => simp [scanName]
    | cons r rs => simp [scanName]
  | cons n ns ih =>
    cases req with
    | nil => simp [scanName]
    | cons r rs =>
      by_cases h : n = r
      · subst h
        simp only [scanName, ↓reduceIte, ih rs]
        exact (List.prefix_cons_inj n).symm
      · simp only [scanName, h, ↓reduceIte, Bool.false_eq_true, false_iff]
        intro hp
        rw [List.cons_prefix_cons] at hp
        exact h hp.1.symm

theorem scanName_self (name : List Char) : scanName name name = true :=
  (scanName_iff name name).mpr (List.prefix_refl name)

theorem echoLookup_find (req : List Char) (st : Store) :
    echoLookup ('$' :: req) st =
      ((st.find? (fun e => decide (req <+: e.1))).map Prod.snd).getD [] := by
  induction st with
  | nil => rfl
  | cons p st ih =>
    obtain ⟨n, v⟩ := p
    by_cases h : req <+: n
    · have hs : scanName n req = true := (scanName_iff n req).mpr h
      simp [echoLookup, hs, List.find?_cons, h]
    · have hs : ¬ scanName n req = true := fun e => h ((scanName_iff n req).mp e)
      simp only [echoLookup, List.drop_one, List.tail_cons, hs, Bool.false_eq_true, ↓reduceIte,
        List.find?_cons, h, decide_False]
      exact ih

theorem echo_single (st : Store) (cmd arg : Token) :
    lsh_echo st [cmd, arg] =
      { store := st, out := [], err := echoToken st arg ++ ['\n'], ret := 1 } := by
  simp [lsh_echo, echoLoop]

theorem echo_dollar (st : Store) (cmd req : Token) :
    (lsh_echo st [cmd, '$' :: req]).err = echoLookup ('$' :: req) st ++ [' ', '\n'] := by
  rw [echo_single]
  simp [echoToken, charAt_cons_zero]

theorem echoLoop_append (st : Store) (a b : List Token) :
    echoLoop st (a ++ b) = echoLoop st a ++ echoLoop st b := by
  induction a with
  | nil => rfl
  | cons t a ih => simp [echoLoop, ih]

theorem echo_dollar_in_context (st : Store) (cmd req : Token) (pre post : List Token) :
    (lsh_echo st (cmd :: (pre ++ ('$' :: req) :: post))).err =
      echoLoop st pre ++ (echoLookup ('$' :: req) st ++ [' ']) ++ echoLoop st post ++
        ['\n'] := by
  have h : ∃ t, (cmd :: (pre ++ ('$' :: req) :: post))[1]? = some t := by
    cases pre with
    | nil => exact ⟨'$' :: req, by simp⟩
    | cons p pre => exact ⟨p, by simp⟩
  obtain ⟨t, ht⟩ := h
  rw [lsh_echo, ht]
  simp [echoLoop_append, echoLoop, echoToken, charAt_cons_zero]

theorem echoLookup_replaced (name v : Token) (st : Store)
    (hmem : name ∈ names st)
    (hfree : ∀ m ∈ (names st).takeWhile (fun m => m ≠ name), ¬ name <+: m) :
    echoLookup ('$' :: name) (replaceLoop name v st).1 = v := by
  induction st with
  | nil => simp [names] at hmem
  | cons p st ih =>
    obtain ⟨a, b⟩ := p
    by_cases h : a = name
    · subst h
      simp [replaceLoop, echoLookup, scanName_self]
    · have hs : ¬ scanName a name = true := by
        intro e
        apply hfree a _ ((scanName_iff a name).mp e)
        simp [names, List.takeWhile_cons, h]
      have hmem2 : name ∈ names st := by
        simp only [names, List.map_cons, List.mem_cons] at hmem
        rcases hmem with e | e
        · exact absurd e.symm h
        · exact e
      simp only [replaceLoop, h, ↓reduceIte, echoLookup, List.drop_one, List.tail_cons, hs,
        Bool.false_eq_true]
      apply ih hmem2
      intro m hm
      apply hfree m
      simp only [names, List.map_cons, List.takeWhile_cons, ne_eq, h, not_false_eq_true,
        decide_True, ↓reduceIte, List.mem_cons]
      exact Or.inr hm

theorem echoLookup_appended (name v : Token) (st : Store)
    (hfree : ∀ m ∈ names st, ¬ name <+: m) :
    echoLookup ('$' :: name) (st ++ [(name, v)]) = v := by
  induction st with
  | nil => simp [echoLookup, scanName_self]
  | cons p st ih =>
    obtain ⟨a, b⟩ := p
    have hs : ¬ scanName a name = true := by
      intro e
      exact hfree a (by simp [names]) ((scanName_iff a name).mp e)
    simp only [List.cons_append, echoLookup, List.drop_one, List.tail_cons, hs,
      Bool.false_eq_true, ↓reduceIte]
    apply ih
    intro m hm
    exact hfree m (by simp only [names, List.map_cons, List.mem_cons]; exact Or.inr hm)

theorem takeWhile_ne_absent (name : Token) (l : List Token) (h : name ∉ l) :
    l.takeWhile (fun m => m ≠ name) = l := by
  rw [List.takeWhile_eq_self_iff]
  intro m hm
  simp only [ne_eq, decide_eq_true_eq]
  intro e; subst e; exact h hm

theorem echoToken_echoed (st : Store) (t : Token) :
    echoToken st t = echoed st t ++ [' '] := by
  unfold echoToken
  cases t with
  | nil => simp [charAt, NUL, echoed]
  | cons c cs =>
    by_cases h : c = '$'
    · subst h
      simp only [charAt_cons_zero, ↓reduceIte, echoed, echoLookup_find]
    · simp only [charAt_cons_zero, h, ↓reduceIte]
      unfold echoed
      split
      · rename_i req heq
        injection heq with h1 _
        exact absurd h1 h
      · rfl

theorem echoLoop_map (st : Store) (ts : List Token) :
    echoLoop st ts = (ts.map (fun t => echoed st t ++ [' '])).flatten := by
  induction ts with
  | nil => rfl
  | cons t ts ih => simp [echoLoop, ih, echoToken_echoed]

theorem echo_format (st : Store) (cmd t : Token) (ts : List Token) :
    lsh_echo st (cmd :: t :: ts) =
      { store := st, out := [],
        err := ((t :: ts).map (fun t => echoed st t ++ [' '])).flatten ++ ['\n'],
        ret := 1 } := by
  have e1 : (cmd :: t :: ts)[1]? = some t := by simp
  rw [lsh_echo, e1]
  simp only [List.drop_one, List.tail_cons, echoLoop_map]

theorem echo_alone (st : Store) (cmd : Token) :
    lsh_echo st [cmd] = { store := st, out := [], err := [], ret := 1 } := by
  have e1 : ([cmd] : List Token)[1]? = none := by simp
  rw [lsh_echo, e1]

theorem echo_ret (st : Store) (args : List Token) : (lsh_echo st args).ret = 1 := by
  unfold lsh_echo
  split <;> rfl

theorem find_none_of_free (st : Store) (x : Token) (h : ∀ m ∈ names st, ¬ x <+: m) :
    st.find? (fun e => decide (x <+: e.1)) = none := by
  rw [List.find?_eq_none]
  intro e he
  simp only [decide_eq_true_eq]
  exact h e.1 (List.mem_map_of_mem Prod.fst he)

/-! ## The dispatch of `lsh_execute` -/

theorem execute_ret (host : Host) (st : Store) (a0 : Token) (rest : List Token) :
    (lsh_execute host st (a0 :: rest)).map (fun r => r.2.outcome.ret) =
      if a0 = "exit".toList then some 0
      else if a0 = "export".toList then (lsh_export st (a0 :: rest)).map (fun _ => 1)
      else some 1 := by
  simp only [lsh_execute, builtin_str, builtin_func, executeLoop]
  by_cases h1 : a0 = "cd".toList
  · subst h1
    simp only [↓reduceIte]
    rw [if_neg (by decide), if_neg (by decide)]
    unfold lsh_cd
    split
    · rfl
    · split <;> rfl
  · by_cases h2 : a0 = "help".toList
    · subst h2
      simp only [↓reduceIte, h1]
      rfl
    · by_cases h3 : a0 = "exit".toList
      · subst h3
        simp only [↓reduceIte, h1, h2]
        rfl
      · by_cases h4 : a0 = "export".toList
        · subst h4
          simp only [↓reduceIte, h1, h2, h3]
          simp only [exportHandler, Option.map_map]
          cases h : lsh_export st ("export".toList :: rest) with
          | none => rfl
          | some o => simp [export_ret st _ o h]
        · by_cases h5 : a0 = "echo".toList
          · subst h5
            simp only [↓reduceIte, h1, h2, h3, h4]
            simp [echoHandler, echo_ret]
          · simp only [h1, h2, h3, h4, h5, ↓reduceIte]
            unfold lsh_launch
            split <;> rfl

theorem execute_export (host : Host) (st : Store) (rest : List Token) :
    lsh_execute host st ("export".toList :: rest) =
      (lsh_export st ("export".toList :: rest)).map
        (fun o => (Invoked.builtin "export".toList,
          { outcome := o, chdir := none, spawned := none })) := by
  simp only [lsh_execute, builtin_str, builtin_func, executeLoop]
  rw [if_neg (by decide), if_neg (by decide), if_neg (by decide)]
  simp only [↓reduceIte, exportHandler, Option.map_map]
  rfl

/-! ## The tokenizer -/

theorem tokensOf_nil : tokensOf [] = [] := by
  simp [tokensOf, List.splitOnP_nil]

theorem tokensOf_dropWhile (s : List Char) : tokensOf (s.dropWhile isDelim) = tokensOf s := by
  induction s with
  | nil => rfl
  | cons c s ih =>
    by_cases h : isDelim c = true
    · rw [List.dropWhile_cons_of_pos h, ih]
      simp [tokensOf, List.splitOnP_cons, h]
    · rw [List.dropWhile_cons_of_neg h]

theorem strtok_none (s : List Char) (h : strtok s = none) : tokensOf s = [] := by
  unfold strtok at h
  split at h
  · rename_i hd
    rw [← tokensOf_dropWhile, hd, tokensOf_nil]
  · exact absurd h (by simp)

theorem strtok_some (s : List Char) (token rest : List Char)
    (h : strtok s = some (token, rest)) :
    tokensOf s = token :: tokensOf rest ∧ rest.length < s.length ∧
      token ≠ [] ∧ ∀ c ∈ token, isDelim c = false := by
  unfold strtok at h
  split at h
  · exact absurd h (by simp)
  · rename_i c cs hd
    simp only [Option.some.injEq, Prod.mk.injEq] at h
    obtain ⟨ht, hr⟩ := h
    have hc : ¬ isDelim c = true := by
      have := List.head_dropWhile_not isDelim s (by rw [hd]; simp)
      simpa [hd] using this
    have hall : ∀ x ∈ token, ¬ isDelim x = true := by
      intro x hx
      rw [← ht] at hx
      have := List.mem_takeWhile_imp hx
      simpa using this
    have hsplit : c :: cs = token ++ (c :: cs).dropWhile (fun x => !isDelim x) := by
      rw [← ht, List.takeWhile_append_dropWhile]
    have htne : token ≠ [] := by
      rw [← ht, List.takeWhile_cons_of_pos (by simpa using hc)]
      simp
    have hlen1 : (s.dropWhile isDelim).length ≤ s.length :=
      (List.dropWhile_sublist isDelim).length_le
    have hlen2 : (c :: cs).length = token.length +
        ((c :: cs).dropWhile (fun x => !isDelim x)).length := by
      conv_lhs => rw [hsplit]
      rw [List.length_append]
    have htpos : 0 < token.length := List.length_pos.mpr htne
    refine ⟨?_, ?_, htne, fun x hx => by simpa using hall x hx⟩
    · rw [← tokensOf_dropWhile s, hd]
      cases hrest : (c :: cs).dropWhile (fun x => !isDelim x) with
      | nil =>
        rw [hrest] at hsplit hr
        simp only [List.append_nil] at hsplit
        simp only [List.drop_nil] at hr
        rw [hsplit, ← hr, tokensOf_nil]
        simp [tokensOf, List.splitOnP_eq_single isDelim token hall, htne]
      | cons d r =>
        rw [hrest] at hsplit hr
        simp only [List.drop_one, List.tail_cons] at hr
        have hdel : isDelim d = true := by
          have := List.head_dropWhile_not (fun x => !isDelim x) (c :: cs) (by rw [hrest]; simp)
          simpa [hrest] using this
        rw [hsplit, ← hr]
        simp [tokensOf, List.splitOnP_first isDelim token hall d hdel r, htne]
    · rw [hd] at hlen1
      rw [← hr, List.length_drop]
      omega

theorem splitLoop_spec : ∀ (fuel : Nat) (s : List Char), s.length < fuel →
    splitLoop fuel s = some (tokensOf s) := by
  intro fuel
  induction fuel with
  | zero => intro s h; omega
  | succ fuel ih =>
    intro s h
    rw [splitLoop]
    cases hs : strtok s with
    | none => simp only; rw [strtok_none s hs]
    | some p =>
      obtain ⟨token, rest⟩ := p
      obtain ⟨ht, hl, _, _⟩ := strtok_some s token rest hs
      simp only
      rw [ih rest (by omega), ht]
      rfl

theorem tokensOf_clean : ∀ (n : Nat) (s : List Char), s.length < n →
    ∀ t ∈ tokensOf s, t ≠ [] ∧ ∀ c ∈ t, isDelim c = false := by
  intro n
  induction n with
  | zero => intro s h; omega
  | succ n ih =>
    intro s h t ht
    cases hs : strtok s with
    | none => rw [strtok_none s hs] at ht; simp at ht
    | some p =>
      obtain ⟨token, rest⟩ := p
      obtain ⟨he, hl, hne, hcl⟩ := strtok_some s token rest hs
      rw [he, List.mem_cons] at ht
      rcases ht with ht | ht
      · subst ht; exact ⟨hne, hcl⟩
      · exact ih rest (by omega) t ht

theorem tokensOf_all_delim (s : List Char) (h : ∀ c ∈ s, isDelim c = true) :
    tokensOf s = [] := by
  have hd : s.dropWhile isDelim = [] := by
    rw [List.dropWhile_eq_nil_iff]
    exact h
  rw [← tokensOf_dropWhile, hd, tokensOf_nil]

theorem tokensOf_delim_cons (d : Char) (s : List Char) (hd : isDelim d = true) :
    tokensOf (d :: s) = tokensOf s := by
  simp [tokensOf, List.splitOnP_cons, hd]

theorem tokensOf_token_delim (t : Token) (d : Char) (s : List Char) (hne : t ≠ [])
    (ht : ∀ c ∈ t, isDelim c = false) (hd : isDelim d = true) :
    tokensOf (t ++ d :: s) = t :: tokensOf s := by
  have hall : ∀ x ∈ t, ¬ isDelim x = true := fun x hx => by simp [ht x hx]
  simp [tokensOf, List.splitOnP_first isDelim t hall d hd s, hne]

theorem tokensOf_token (t : Token) (hne : t ≠ []) (ht : ∀ c ∈ t, isDelim c = false) :
    tokensOf t = [t] := by
  have hall : ∀ x ∈ t, ¬ isDelim x = true := fun x hx => by simp [ht x hx]
  simp [tokensOf, List.splitOnP_eq_single isDelim t hall, hne]

theorem split_line_spec (line : List Char) : lsh_split_line line = some (tokensOf line) :=
  splitLoop_spec (line.length + 1) line (Nat.lt_succ_self _)

/-! ## The writes into the staging buffers -/

theorem nameLoopWrites_lt (tok : Token) : ∀ (left i ind_tmp : Nat),
    ∀ k ∈ nameLoopWrites tok left i ind_tmp, k < i + left := by
  intro left
  induction left with
  | zero => intro i it k hk; simp [nameLoopWrites] at hk
  | succ left ih =>
    intro i it k hk
    rw [nameLoopWrites] at hk
    split at hk
    · simp at hk
    · rw [List.mem_cons] at hk
      rcases hk with hk | hk
      · omega
      · have := ih (i + 1) (it + 1) k hk
        omega

theorem name_writes_in_bounds (args : List Token) :
    ∀ k ∈ (exportWrites args).1, k ≤ 10 := by
  intro k hk
  unfold exportWrites at hk
  split at hk
  · simp at hk
  · rename_i a1 _
    split at hk
    · simp at hk
    · have hloop : ∀ k ∈ nameLoopWrites a1 MAX_LENGTH_OF_VARIABLE_NAME 0 0, k ≤ 10 := by
        intro k hk
        have := nameLoopWrites_lt a1 MAX_LENGTH_OF_VARIABLE_NAME 0 0 k hk
        simp only [MAX_LENGTH_OF_VARIABLE_NAME] at this
        omega
      split at hk
      · exact hloop k hk
      · rename_i name ia it hp
        simp only [List.mem_append, List.mem_singleton] at hk
        rcases hk with hk | hk
        · exact hloop k hk
        · rw [hk]; exact (parseName_name_length args a1 name ia it hp).2

theorem copyWrites_range (cs : List Char) : ∀ n, copyWrites n cs = List.range' n cs.length := by
  induction cs with
  | nil => intro n; rfl
  | cons c cs ih => intro n; simp [copyWrites, ih, List.range']

theorem valueLen_ge : ∀ (toks : List Token) (ia it n : Nat), n ≤ valueLen toks ia it n := by
  intro toks
  induction toks with
  | nil => intro ia it n; simp [valueLen]
  | cons t toks ih =>
    intro ia it n
    rw [valueLen]
    split
    · have := ih (ia + 1) 0 (n + 1 + (t.drop it).length); omega
    · have := ih (ia + 1) 0 (n + (t.drop it).length); omega

theorem valueLoopWrites_range : ∀ (toks : List Token) (ia it n : Nat),
    valueLoopWrites toks ia it n = List.range' n (valueLen toks ia it n - n + 1) := by
  intro toks
  induction toks with
  | nil => intro ia it n; simp [valueLoopWrites, valueLen, List.range']
  | cons t toks ih =>
    intro ia it n
    rw [valueLoopWrites, valueLen]
    split
    · have hge := valueLen_ge toks (ia + 1) 0 (n + 1 + (t.drop it).length)
      have e : valueLen toks (ia + 1) 0 (n + 1 + (t.drop it).length) - n + 1 =
          (valueLen toks (ia + 1) 0 (n + 1 + (t.drop it).length) -
            (n + 1 + (t.drop it).length) + 1 + (t.drop it).length) + 1 := by omega
      rw [ih, copyWrites_range, List.range'_append_1, e, List.range'_succ]
    · have hge := valueLen_ge toks (ia + 1) 0 (n + (t.drop it).length)
      have e : valueLen toks (ia + 1) 0 (n + (t.drop it).length) - n + 1 =
          valueLen toks (ia + 1) 0 (n + (t.drop it).length) -
            (n + (t.drop it).length) + 1 + (t.drop it).length := by omega
      rw [ih, copyWrites_range, List.range'_append_1, e]

theorem valueLoop_len : ∀ (toks : List Token) (ia it : Nat) (buf : List Char),
    buf.length ≤ 16 →
    (valueLen toks ia it buf.length ≤ 16 →
      ∃ v, valueLoop toks ia it buf = some v ∧ v.length = valueLen toks ia it buf.length) ∧
    (16 < valueLen toks ia it buf.length → valueLoop toks ia it buf = none) := by
  intro toks
  induction toks with
  | nil =>
    intro ia it buf hb
    simp only [valueLen, valueLoop]
    exact ⟨fun _ => ⟨buf, rfl, rfl⟩, fun h => by omega⟩
  | cons t toks ih =>
    intro ia it buf hb
    rw [valueLen, valueLoop]
    by_cases hc : (decide (ia > 1) && decide (buf.length > 0)) = true
    · simp only [hc, ↓reduceIte]
      have hge := valueLen_ge toks (ia + 1) 0 (buf.length + 1 + (t.drop it).length)
      by_cases hlt : buf.length < 16
      · have hp : putValue buf ' ' = some (buf ++ [' ']) := by
          simp [putValue, MAX_LENGTH_OF_VARIABLE_VALUE, hlt]
        rw [hp]
        simp only
        rw [copyBytes_spec (t.drop it) (buf ++ [' ']) (by simp; omega)]
        by_cases hfit : (buf ++ [' ']).length + (t.drop it).length ≤ 16
        · rw [if_pos hfit]
          simp only
          have hl : (buf ++ [' '] ++ t.drop it).length =
              buf.length + 1 + (t.drop it).length := by
            simp only [List.length_append, List.length_singleton]
          have := ih (ia + 1) 0 (buf ++ [' '] ++ t.drop it) (by rw [hl]; simpa using hfit)
          rw [hl] at this
          exact this
        · rw [if_neg hfit]
          simp only [List.length_append, List.length_singleton] at hfit
          exact ⟨fun h => by omega, fun _ => rfl⟩
      · have hp : putValue buf ' ' = none := by
          simp [putValue, MAX_LENGTH_OF_VARIABLE_VALUE, hlt]
        rw [hp]
        exact ⟨fun h => by omega, fun _ => rfl⟩
    · simp only [hc, Bool.false_eq_true, ↓reduceIte]
      have hge := valueLen_ge toks (ia + 1) 0 (buf.length + (t.drop it).length)
      rw [copyBytes_spec (t.drop it) buf hb]
      by_cases hfit : buf.length + (t.drop it).length ≤ 16
      · rw [if_pos hfit]
        simp only
        have hl : (buf ++ t.drop it).length = buf.length + (t.drop it).length := by
          simp only [List.length_append]
        have := ih (ia + 1) 0 (buf ++ t.drop it) (by rw [hl]; exact hfit)
        rw [hl] at this
        exact this
      · rw [if_neg hfit]
        exact ⟨fun h => by omega, fun _ => rfl⟩

theorem storeValue_none_iff (st : Store) (args : List Token) (name : Token) (ia it : Nat) :
    storeValue st args name ia it = none ↔ 15 < valueLen (args.drop ia) ia it 0 := by
  have h := valueLoop_len (args.drop ia) ia it [] (by simp)
  simp only [List.length_nil] at h
  unfold storeValue
  by_cases hle : valueLen (args.drop ia) ia it 0 ≤ 16
  · obtain ⟨v, hv, hlen⟩ := h.1 hle
    rw [hv]
    simp only [MAX_LENGTH_OF_VARIABLE_VALUE, hlen]
    constructor
    · intro hn
      split at hn
      · split at hn
        · exact absurd hn (by simp)
        · exact absurd hn (by simp)
      · omega
    · intro h15
      rw [if_neg (by omega)]
  · rw [h.2 (by omega)]
    simp only [true_iff]
    omega

/-- The call overruns `variable_value` exactly when one of the indices it computes for
that buffer is above 15. -/
theorem export_none_iff_overrun (st : Store) (args : List Token) :
    lsh_export st args = none ↔ ∃ k ∈ (exportWrites args).2, 15 < k := by
  unfold lsh_export exportWrites
  cases h1 : args[1]? with
  | none => simp
  | some a1 =>
    simp only
    cases hp : parseName args a1 with
    | fail msg =>
      by_cases hl : isLetter (charAt a1 0) = true <;> simp [hl]
    | cursor name ia it =>
      have hl : isLetter (charAt a1 0) = true := by
        by_contra hl
        simp [parseName, hl] at hp
      simp only [hl, Bool.not_true, Bool.false_eq_true, ↓reduceIte]
      rw [storeValue_none_iff, valueLoopWrites_range]
      simp only [List.mem_range'_1, Nat.zero_le, true_and, Nat.sub_zero, Nat.zero_add]
      constructor
      · intro h; exact ⟨valueLen (args.drop ia) ia it 0, by omega, h⟩
      · rintro ⟨k, hk, h15⟩; omega

/-! ## The claims -/

/-- C1: from the empty table, a sequence of valid `export NAME=VALUE` invocations with at
most 5 distinct names returns a table whose names are pairwise distinct, are exactly the
exported names, are ordered by first appearance in the sequence, and each carry the value
of the last export of that name. -/
theorem export_sequence_holds_latest (ops : List (Token × Token))
    (hvalid : ∀ p ∈ ops, ValidName p.1 ∧ ValidValue p.2)
    (hcard : (ops.map Prod.fst).toFinset.card ≤ 5) :
    ∃ st, runExports [] (ops.map exportCmd) = some st ∧
      (names st).Nodup ∧
      (∀ n, n ∈ names st ↔ n ∈ ops.map Prod.fst) ∧
      (names st).Pairwise
        (fun a b => firstIndex (ops.map Prod.fst) a < firstIndex (ops.map Prod.fst) b) ∧
      (∀ n v, (n, v) ∈ st → lastValue ops n = some v) :=
  ⟨_, runExports_valid ops hvalid [], holds_foldl ops hcard⟩

theorem export_sequence_holds_latest_witness :
    ∃ st, runExports [] (sampleOps.map exportCmd) = some st ∧
      (names st).Nodup ∧
      (∀ n, n ∈ names st ↔ n ∈ sampleOps.map Prod.fst) ∧
      (names st).Pairwise
        (fun a b =>
          firstIndex (sampleOps.map Prod.fst) a < firstIndex (sampleOps.map Prod.fst) b) ∧
      (∀ n v, (n, v) ∈ st → lastValue sampleOps n = some v) :=
  export_sequence_holds_latest sampleOps (by decide) (by decide)

/-- C2: every table reachable from the empty one by calls of `lsh_export` and `lsh_echo`
on token vectors of non-empty tokens has at most 5 entries, names of 1 to 10 bytes, values
of at most 15 bytes, and pairwise distinct names. -/
theorem reachable_store_invariant (st : Store) (h : Reachable st) :
    st.length ≤ 5 ∧
    (∀ p ∈ st, 1 ≤ p.1.length ∧ p.1.length ≤ 10 ∧ p.2.length ≤ 15) ∧
    (st.map Prod.fst).Nodup :=
  reachable_wf st h

theorem reachable_store_invariant_witness :
    Reachable [("A".toList, "hello".toList)] ∧
    ([("A".toList, "hello".toList)] : Store).length ≤ 5 ∧
    (∀ p ∈ ([("A".toList, "hello".toList)] : Store),
      1 ≤ p.1.length ∧ p.1.length ≤ 10 ∧ p.2.length ≤ 15) ∧
    (([("A".toList, "hello".toList)] : Store).map Prod.fst).Nodup :=
  have hr : Reachable [("A".toList, "hello".toList)] :=
    Reachable.byExport [] ["export".toList, "A=hello".toList]
      ⟨[("A".toList, "hello".toList)], [], [], 1⟩ Reachable.empty (by decide) (by decide)
  ⟨hr, reachable_store_invariant _ hr⟩

/-- C3 (counterexample): the round trip fails on reachable tables.  After `export AB=x`,
`export A=hello` then `echo $A` writes `x` (row `AB` is found first); on a full table
`export F=v` then `echo $F` writes no value; after `export A=x`, `export A=` then `echo $A`
still writes `x`; and `export A=B=v` then `echo $A=B` writes no value. -/
theorem round_trip_counterexample :
    (Reachable [("AB".toList, "x".toList)] ∧
      1 ≤ "A".toList.length ∧ "A".toList.length ≤ 10 ∧ isLetter (charAt "A".toList 0) = true ∧
      "hello".toList.length ≤ 15 ∧
      roundTrip [("AB".toList, "x".toList)] "A".toList "hello".toList = some "x \n".toList ∧
      roundTrip [("AB".toList, "x".toList)] "A".toList "hello".toList ≠
        some ("hello".toList ++ [' ', '\n'])) ∧
    (Reachable fullStore ∧
      roundTrip fullStore "F".toList "v".toList = some " \n".toList) ∧
    (Reachable [("A".toList, "x".toList)] ∧
      roundTrip [("A".toList, "x".toList)] "A".toList [] = some "x \n".toList) ∧
    roundTrip [] "A=B".toList "v".toList = some " \n".toList :=
  ⟨⟨reachable_runExports [["export".toList, "AB=x".toList]] [] _ Reachable.empty
      (by decide) (by decide), by decide, by decide, by decide, by decide, by decide, by decide⟩,
    ⟨fullStore_reachable, by decide⟩,
    ⟨reachable_runExports [["export".toList, "A=x".toList]] [] _ Reachable.empty
      (by decide) (by decide), by decide⟩,
    by decide⟩

/-- C3 (amended): for a valid name (1 to 10 bytes, letter first, no `=`) and a value of 1 to
15 bytes, on a table that already holds the name or has fewer than 5 entries, and in which
no row ahead of the row of that name has a name beginning with it, `export name=value`
followed by `echo $name` writes the value, one space and a newline to stderr. -/
theorem export_then_echo_round_trip (st : Store) (name value : Token)
    (hn : ValidName name) (hv : ValidValue value)
    (hroom : name ∈ names st ∨ st.length < 5)
    (hfree : ∀ m ∈ (names st).takeWhile (fun m => m ≠ name), ¬ name <+: m) :
    roundTrip st name value = some (value ++ [' ', '\n']) := by
  rw [roundTrip, export_assign st _ name value hn hv]
  simp only [Option.map_some', echo_dollar, Option.some.injEq, List.append_cancel_right_eq]
  by_cases hmem : name ∈ names st
  · rw [commit_present st name value hmem]
    exact echoLookup_replaced name value st hmem hfree
  · have hlen : st.length ≠ MAX_NUM_OF_VARIABLES := by
      rcases hroom with h | h
      · exact absurd h hmem
      · simp only [MAX_NUM_OF_VARIABLES]; omega
    rw [commit_append st name value hmem hlen]
    apply echoLookup_appended
    rw [takeWhile_ne_absent name _ hmem] at hfree
    exact hfree

theorem export_then_echo_round_trip_witness :
    roundTrip [("B".toList, "x".toList)] "A".toList "hello".toList = some "hello \n".toList :=
  export_then_echo_round_trip [("B".toList, "x".toList)] "A".toList "hello".toList
    (by decide) (by decide) (by decide) (by decide)

/-- C4: on a table of 5 entries, a valid `export NAME=VALUE` whose NAME is not stored
returns 1, leaves the table as it was and writes the capacity diagnostic to stderr; and of
six valid exports with six distinct names from the empty table, the first five build the
table, in order, and the sixth is answered by the capacity diagnostic, so the table ends
holding the first five. -/
theorem export_capacity :
    (∀ (st : Store) (cmd n v : Token), st.length = 5 → ValidName n → ValidValue v →
      n ∉ names st →
      lsh_export st [cmd, n ++ '=' :: v] =
        some { store := st, out := [], err := msgMaxVars, ret := 1 }) ∧
    (∀ ops : List (Token × Token), ops.length = 6 →
      (∀ p ∈ ops, ValidName p.1 ∧ ValidValue p.2) → (ops.map Prod.fst).Nodup →
      runExports [] ((ops.take 5).map exportCmd) = some (ops.take 5) ∧
      (∀ p ∈ ops.drop 5,
        lsh_export (ops.take 5) (exportCmd p) =
          some { store := ops.take 5, out := [], err := msgMaxVars, ret := 1 }) ∧
      runExports [] (ops.map exportCmd) = some (ops.take 5)) := by
  have part1 : ∀ (st : Store) (cmd n v : Token), st.length = 5 → ValidName n →
      ValidValue v → n ∉ names st →
      lsh_export st [cmd, n ++ '=' :: v] =
        some { store := st, out := [], err := msgMaxVars, ret := 1 } := by
    intro st cmd n v h5 hn hv hnot
    rw [export_assign st cmd n v hn hv, commit_full st n v hnot h5]
    rfl
  refine ⟨part1, ?_⟩
  intro ops hlen hvalid hnd
  have hsplit : ops = ops.take 5 ++ ops.drop 5 := (List.take_append_drop 5 ops).symm
  have hnd5 : (names ([] ++ ops.take 5)).Nodup := by
    rw [hsplit, List.map_append] at hnd
    simpa [names] using (List.nodup_append.mp hnd).1
  have hlen5 : (ops.take 5).length = 5 := by simp [hlen]
  have hfirst : runExports [] ((ops.take 5).map exportCmd) = some (ops.take 5) := by
    rw [runExports_valid (ops.take 5) (fun p hp => hvalid p (List.mem_of_mem_take hp)) [],
      foldl_commit_distinct (ops.take 5) [] hnd5 (by simp)]
    simp
  have hsixth : ∀ p ∈ ops.drop 5,
      lsh_export (ops.take 5) (exportCmd p) =
        some { store := ops.take 5, out := [], err := msgMaxVars, ret := 1 } := by
    intro p hp
    have hv := hvalid p (List.mem_of_mem_drop hp)
    apply part1 _ _ p.1 p.2 hlen5 hv.1 hv.2
    intro hin
    rw [hsplit, List.map_append] at hnd
    exact (List.nodup_append.mp hnd).2.2 hin (List.mem_map_of_mem Prod.fst hp)
  refine ⟨hfirst, hsixth, ?_⟩
  have hdrop : ∃ p, ops.drop 5 = [p] := by
    have h1 : (ops.drop 5).length = 1 := by simp [hlen]
    match hd : ops.drop 5, h1 with
    | [p], _ => exact ⟨p, rfl⟩
  obtain ⟨p, hp⟩ := hdrop
  have hmap : ops.map exportCmd = (ops.take 5).map exportCmd ++ [exportCmd p] := by
    conv_lhs => rw [hsplit, hp]
    simp
  rw [hmap, runExports_append, hfirst]
  show runExports (ops.take 5) [exportCmd p] = some (ops.take 5)
  simp only [runExports]
  rw [hsixth p (by rw [hp]; exact List.mem_singleton_self p)]

theorem export_capacity_witness :
    lsh_export fullStore ["export".toList, "F".toList ++ '=' :: "6".toList] =
      some { store := fullStore, out := [], err := msgMaxVars, ret := 1 } ∧
    runExports [] (sixOps.map exportCmd) = some (sixOps.take 5) :=
  ⟨export_capacity.1 fullStore "export".toList "F".toList "6".toList
      (by decide) (by decide) (by decide) (by decide),
    (export_capacity.2 sixOps (by decide) (by decide) (by decide)).2.2⟩

/-- C5 (counterexample): `export` without arguments, on the reachable table holding
`A = x`, returns with the table unchanged and nothing on stderr: the table is not written
and no diagnostic is emitted (the listing goes to stdout). -/
theorem export_listing_neither :
    Reachable [("A".toList, "x".toList)] ∧
    lsh_export [("A".toList, "x".toList)] ["export".toList] =
      some { store := [("A".toList, "x".toList)],
             out := listing [("A".toList, "x".toList)], err := [], ret := 1 } ∧
    listing [("A".toList, "x".toList)] =
      "declare A = ".toList ++ [Char.ofNat 34, 'x', Char.ofNat 34, '\n'] :=
  ⟨reachable_runExports [["export".toList, "A=x".toList]] [] _ Reachable.empty
      (by decide) (by decide), by decide, by decide⟩

/-- C5 (amended): for every `export` invocation with at least one extra token, on non-empty
tokens, whose name parsing fails or whose candidate value has at most 15 bytes, the call
returns 1 with nothing on stdout and exactly one of two things happens: nothing is written
to stderr and one table entry is written (a row's value overwritten or a row appended), or
one diagnostic is written to stderr and the table is unchanged. -/
theorem export_writes_or_diagnoses (st : Store) (args : List Token) (a1 : Token)
    (h1 : args[1]? = some a1) (hne : ∀ t ∈ args, t ≠ [])
    (hfit : ∀ name ia it, parseName args a1 = .cursor name ia it →
      (candidateValue args ia it).length ≤ 15) :
    ∃ o, lsh_export st args = some o ∧ o.out = [] ∧ o.ret = 1 ∧
      ((o.err = [] ∧ OneWrite st o.store) ∨
       (o.err ≠ [] ∧ o.err ∈ [msgFirstLetter, msgNameLimit, msgMoreArgs, msgMaxVars] ∧
         o.store = st)) := by
  cases hp : parseName args a1 with
  | fail msg =>
    refine ⟨diag st msg, by rw [lsh_export, h1]; simp only; rw [hp], rfl, rfl, Or.inr ?_⟩
    rcases parseName_fail args a1 msg hp with e | e | e <;> subst e
    · exact ⟨(by decide : msgFirstLetter ≠ []), by simp [diag], rfl⟩
    · exact ⟨(by decide : msgNameLimit ≠ []), by simp [diag], rfl⟩
    · exact ⟨(by decide : msgMoreArgs ≠ []), by simp [diag], rfl⟩
  | cursor name ia it =>
    have hrule := export_value_rule st args a1 name ia it h1 hne hp
    rw [if_pos (hfit name ia it hp)] at hrule
    refine ⟨_, hrule, (commit_out_ret st name _).1, (commit_out_ret st name _).2, ?_⟩
    rcases commit_cases st name (candidateValue args ia it) with ⟨he, hw⟩ | ⟨he, hs⟩
    · exact Or.inl ⟨he, hw⟩
    · refine Or.inr ⟨?_, ?_, hs⟩
      · rw [he]; decide
      · rw [he]; simp

theorem export_writes_or_diagnoses_witness :
    ∃ o, lsh_export [("A".toList, "x".toList)]
        ["export".toList, "B".toList, "=".toList, "John".toList, "Doe".toList] = some o ∧
      o.out = [] ∧ o.ret = 1 ∧
      ((o.err = [] ∧ OneWrite [("A".toList, "x".toList)] o.store) ∨
       (o.err ≠ [] ∧ o.err ∈ [msgFirstLetter, msgNameLimit, msgMoreArgs, msgMaxVars] ∧
         o.store = [("A".toList, "x".toList)])) :=
  export_writes_or_diagnoses [("A".toList, "x".toList)]
    ["export".toList, "B".toList, "=".toList, "John".toList, "Doe".toList] "B".toList
    (by decide) (by decide)
    (by
      intro name ia it h
      have hc : parseName ["export".toList, "B".toList, "=".toList, "John".toList,
          "Doe".toList] "B".toList = .cursor "B".toList 3 0 := by decide
      rw [hc] at h
      injection h with _ e1 e2
      subst e1; subst e2
      decide)

/-- C6: the `$REQ` lookup of `echo` is a prefix match on the request.  A table row matches
exactly when REQ is a prefix of its name (a longer name matches, a name that is a proper
prefix of REQ does not); the token prints the value of the first row, in table order, that
matches, and no value when no row matches; this is what `echo $REQ` writes, followed by a
space and a newline, and what the token contributes among other tokens. -/
theorem echo_lookup_is_prefix_match :
    (∀ name req : Token, scanName name req = true ↔ req <+: name) ∧
    (∀ (st : Store) (req : Token),
      echoLookup ('$' :: req) st =
        ((st.find? (fun e => decide (req <+: e.1))).map Prod.snd).getD []) ∧
    (∀ (st : Store) (cmd req : Token),
      (lsh_echo st [cmd, '$' :: req]).err =
        ((st.find? (fun e => decide (req <+: e.1))).map Prod.snd).getD [] ++ [' ', '\n']) ∧
    (∀ (st : Store) (cmd req : Token) (pre post : List Token),
      (lsh_echo st (cmd :: (pre ++ ('$' :: req) :: post))).err =
        echoLoop st pre ++
          (((st.find? (fun e => decide (req <+: e.1))).map Prod.snd).getD [] ++ [' ']) ++
          echoLoop st post ++ ['\n']) :=
  ⟨scanName_iff, fun st req => echoLookup_find req st,
    fun st cmd req => by rw [echo_dollar, echoLookup_find],
    fun st cmd req pre post => by rw [echo_dollar_in_context, echoLookup_find]⟩

/-- C7: for a valid name `N` and value tokens `V1 .. Vk` with `V1` non-empty, the
invocations `export N= V1 ..`, `export N = V1 ..` and `export N =V1 ..` have the same
outcome (table, stdout, stderr, return value) as `export N=V1 ..`: the value `V1 .. Vk`
joined by single spaces is committed under `N` when it has at most 15 bytes, and all
four overrun the value buffer alike when it has more. -/
theorem export_eq_placement (st : Store) (cmd n v1 : Token) (vs : List Token)
    (hn : ValidName n) (hv1 : v1 ≠ []) :
    lsh_export st (cmd :: (n ++ ['=']) :: v1 :: vs) =
        lsh_export st (cmd :: (n ++ '=' :: v1) :: vs) ∧
    lsh_export st (cmd :: n :: ['='] :: v1 :: vs) =
        lsh_export st (cmd :: (n ++ '=' :: v1) :: vs) ∧
    lsh_export st (cmd :: n :: ('=' :: v1) :: vs) =
        lsh_export st (cmd :: (n ++ '=' :: v1) :: vs) ∧
    lsh_export st (cmd :: (n ++ '=' :: v1) :: vs) =
      if (List.intercalate [' '] (v1 :: vs)).length ≤ 15 then
        some (commit st n (List.intercalate [' '] (v1 :: vs)))
      else none := by
  rw [export_joined st cmd n v1 vs hn hv1, export_trailing_eq st cmd n v1 vs hn hv1,
    export_lone_eq st cmd n v1 vs hn hv1, export_leading_eq st cmd n v1 vs hn hv1,
    intercalate_space]
  exact ⟨rfl, rfl, rfl, rfl⟩

theorem export_eq_placement_witness :
    lsh_export [] ["export".toList, "NAME".toList ++ ['='], "John".toList, "Doe".toList] =
        lsh_export [] ["export".toList, "NAME".toList ++ '=' :: "John".toList, "Doe".toList] ∧
    lsh_export [] ["export".toList, "NAME".toList, ['='], "John".toList, "Doe".toList] =
        lsh_export [] ["export".toList, "NAME".toList ++ '=' :: "John".toList, "Doe".toList] ∧
    lsh_export [] ["export".toList, "NAME".toList, '=' :: "John".toList, "Doe".toList] =
        lsh_export [] ["export".toList, "NAME".toList ++ '=' :: "John".toList, "Doe".toList] ∧
    lsh_export [] ["export".toList, "NAME".toList ++ '=' :: "John".toList, "Doe".toList] =
      if (List.intercalate [' '] ["John".toList, "Doe".toList]).length ≤ 15 then
        some (commit [] "NAME".toList (List.intercalate [' '] ["John".toList, "Doe".toList]))
      else none :=
  export_eq_placement [] "export".toList "NAME".toList "John".toList ["Doe".toList]
    (by decide) (by decide)

/-- C8 (failing input): a value of 15 bytes is committed, but with a value of 16 bytes
`export A=0123456789abcdef` writes the terminator to `variable_value[16]`, outside the
16-byte buffer, before the length test is reached; no diagnostic is produced by a defined
execution. -/
theorem export_value_overrun :
    lsh_export [] ["export".toList, "A=0123456789abcde".toList] =
      some { store := [("A".toList, "0123456789abcde".toList)], out := [], err := [], ret := 1 } ∧
    valueLoop ["A=0123456789abcdef".toList] 1 2 [] = some "0123456789abcdef".toList ∧
    "0123456789abcdef".toList.length = MAX_LENGTH_OF_VARIABLE_VALUE + 1 ∧
    lsh_export [] ["export".toList, "A=0123456789abcdef".toList] = none ∧
    lsh_export [] ["export".toList, "A=0123456789abcdefg".toList] = none := by
  decide

/-- C9: for a first extra token that starts with a letter, with at most 10 bytes before
its first `=` the name staged and handed on by the parser is exactly those bytes (the whole
token when it has no `=`) and the call is never answered by the name-limit diagnostic; a
valid name of exactly 10 bytes in `export N=V` is stored as given; and with more than 10
bytes before any `=` the call returns 1 with the table unchanged and the name-limit
diagnostic on stderr. -/
theorem export_name_rule :
    (∀ (st : Store) (args : List Token) (a1 : Token), args[1]? = some a1 →
      isLetter (charAt a1 0) = true → (beforeEq a1).length ≤ 10 →
      (nameLoop a1 MAX_LENGTH_OF_VARIABLE_NAME 0 0 []).2 = beforeEq a1 ∧
      (∀ name ia it, parseName args a1 = .cursor name ia it → name = beforeEq a1) ∧
      lsh_export st args ≠ some (diag st msgNameLimit)) ∧
    (∀ (st : Store) (cmd n v : Token), n.length = 10 → isLetter (charAt n 0) = true →
      '=' ∉ n → ValidValue v → (n ∈ names st ∨ st.length < 5) →
      ∃ o, lsh_export st [cmd, n ++ '=' :: v] = some o ∧ o.err = [] ∧ (n, v) ∈ o.store) ∧
    (∀ (st : Store) (args : List Token) (a1 : Token), args[1]? = some a1 →
      isLetter (charAt a1 0) = true → 10 < (beforeEq a1).length →
      lsh_export st args = some { store := st, out := [], err := msgNameLimit, ret := 1 }) := by
  refine ⟨?_, ?_, ?_⟩
  · intro st args a1 h1 hl hshort
    have htake : (beforeEq a1).take 10 = beforeEq a1 := List.take_of_length_le hshort
    refine ⟨by rw [nameLoop_start, htake], ?_, ?_⟩
    · intro name ia it hp
      rcases parseName_short args a1 hl hshort with h | ⟨ia2, it2, h⟩
      · rw [h] at hp; exact absurd hp (by simp)
      · rw [h] at hp; injection hp with e _ _; exact e.symm
    · intro hcontra
      rw [lsh_export, h1] at hcontra
      simp only at hcontra
      rcases parseName_short args a1 hl hshort with h | ⟨ia2, it2, h⟩
      · rw [h] at hcontra
        simp only [Option.some.injEq] at hcontra
        have hm : msgMoreArgs = msgNameLimit := congrArg Outcome.err hcontra
        exact absurd hm (by decide)
      · rw [h] at hcontra
        simp only at hcontra
        obtain ⟨v, _, ho⟩ := storeValue_some st args _ ia2 it2 _ hcontra
        have herr : msgNameLimit = (commit st (beforeEq a1) v).err := congrArg Outcome.err ho
        rcases commit_err st (beforeEq a1) v with e | e
        · rw [e] at herr; exact absurd herr (by decide)
        · rw [e] at herr; exact absurd herr (by decide)
  · intro st cmd n v hlen hl he hv hroom
    have hn : ValidName n := ⟨by omega, by omega, hl, he⟩
    refine ⟨_, export_assign st cmd n v hn hv, ?_⟩
    by_cases hmem : n ∈ names st
    · rw [commit_present st n v hmem]
      exact ⟨rfl, replaceLoop_has n v st hmem⟩
    · have hfull : st.length ≠ MAX_NUM_OF_VARIABLES := by
        rcases hroom with h | h
        · exact absurd h hmem
        · simp only [MAX_NUM_OF_VARIABLES]; omega
      rw [commit_append st n v hmem hfull]
      exact ⟨rfl, by simp⟩
  · intro st args a1 h1 hl hlong
    rw [lsh_export, h1]
    simp only
    rw [parseName_long args a1 hl hlong]
    rfl

theorem export_name_rule_witness :
    ((nameLoop "ABCDEFGHIJ=x".toList MAX_LENGTH_OF_VARIABLE_NAME 0 0 []).2 =
        beforeEq "ABCDEFGHIJ=x".toList ∧
      lsh_export [] ["export".toList, "ABCDEFGHIJ=x".toList] ≠ some (diag [] msgNameLimit)) ∧
    (∃ o, lsh_export [] ["export".toList, "ABCDEFGHIJ".toList ++ '=' :: "x".toList] = some o ∧
      o.err = [] ∧ ("ABCDEFGHIJ".toList, "x".toList) ∈ o.store) ∧
    lsh_export [] ["export".toList, "ABCDEFGHIJK=x".toList] =
      some { store := [], out := [], err := msgNameLimit, ret := 1 } :=
  ⟨⟨(export_name_rule.1 [] ["export".toList, "ABCDEFGHIJ=x".toList] "ABCDEFGHIJ=x".toList
        (by decide) (by decide) (by decide)).1,
      (export_name_rule.1 [] ["export".toList, "ABCDEFGHIJ=x".toList] "ABCDEFGHIJ=x".toList
        (by decide) (by decide) (by decide)).2.2⟩,
    export_name_rule.2.1 [] "export".toList "ABCDEFGHIJ".toList "x".toList
      (by decide) (by decide) (by decide) (by decide) (by decide),
    export_name_rule.2.2 [] ["export".toList, "ABCDEFGHIJK=x".toList] "ABCDEFGHIJK=x".toList
      (by decide) (by decide) (by decide)⟩

/-- C10: on a table with pairwise distinct names that holds `N` in row `i` (full or not),
a valid `export N=V` returns with nothing on stderr, the table keeps its length and its
names in their order, row `i` now holds the value `V`, and every other row is as before. -/
theorem export_updates_in_place (st : Store) (i : Nat) (cmd n v : Token)
    (hi : i < st.length) (hnd : (names st).Nodup) (hrow : st[i].1 = n)
    (hn : ValidName n) (hv : ValidValue v) :
    ∃ o, lsh_export st [cmd, n ++ '=' :: v] = some o ∧
      o.err = [] ∧ o.out = [] ∧ o.ret = 1 ∧
      o.store.length = st.length ∧
      names o.store = names st ∧
      o.store[i]? = some (n, v) ∧
      ∀ j, j ≠ i → o.store[j]? = st[j]? := by
  have hmem : n ∈ names st := by
    rw [← hrow]
    exact List.mem_map_of_mem Prod.fst (List.getElem_mem hi)
  have hset : (replaceLoop n v st).1 = st.set i (n, v) := by
    apply replaceLoop_set n v st i hi hrow
    intro j hj hji
    rw [← hrow]
    exact nodup_first st i hi hnd j hj hji
  refine ⟨_, export_assign st cmd n v hn hv, ?_⟩
  rw [commit_present st n v hmem]
  simp only [hset, List.length_set, true_and]
  refine ⟨?_, ?_, ?_⟩
  · rw [← hset]; exact replaceLoop_names n v st
  · simp [hi]
  · intro j hj
    exact List.getElem?_set_ne (fun e => hj e.symm)

theorem export_updates_in_place_witness :
    ∃ o, lsh_export fullStore ["export".toList, "C".toList ++ '=' :: "new".toList] = some o ∧
      o.err = [] ∧ o.out = [] ∧ o.ret = 1 ∧
      o.store.length = fullStore.length ∧
      names o.store = names fullStore ∧
      o.store[2]? = some ("C".toList, "new".toList) ∧
      ∀ j, j ≠ 2 → o.store[j]? = fullStore[j]? :=
  export_updates_in_place fullStore 2 "export".toList "C".toList "new".toList
    (by decide) (by decide) (by decide) (by decide) (by decide)

/-- C11: `lsh_split_line` returns, for every line, the non-empty pieces between delimiter
bytes (space, tab, carriage return, newline, alert), in order.  The pieces are fixed by
four rules: the empty line has none, a leading delimiter is skipped, a non-empty
delimiter-free run followed by a delimiter is a token, and such a run at the end of the
line is a token.  Hence no returned token is empty or contains a delimiter, and a line of
delimiter bytes only (the empty line included) gives the empty token vector. -/
theorem split_line_tokens :
    (∀ line : List Char, lsh_split_line line = some (tokensOf line)) ∧
    (tokensOf [] = [] ∧
      (∀ (d : Char) (s : List Char), isDelim d = true → tokensOf (d :: s) = tokensOf s) ∧
      (∀ (t : Token) (d : Char) (s : List Char), t ≠ [] → (∀ c ∈ t, isDelim c = false) →
        isDelim d = true → tokensOf (t ++ d :: s) = t :: tokensOf s) ∧
      (∀ t : Token, t ≠ [] → (∀ c ∈ t, isDelim c = false) → tokensOf t = [t])) ∧
    (∀ (line : List Char) (tokens : List Token), lsh_split_line line = some tokens →
      ∀ t ∈ tokens, t ≠ [] ∧ ∀ c ∈ t, isDelim c = false) ∧
    (∀ line : List Char, (∀ c ∈ line, isDelim c = true) → lsh_split_line line = some []) ∧
    (∀ c : Char, isDelim c = true ↔
      c = ' ' ∨ c = '\t' ∨ c = '\r' ∨ c = '\n' ∨ c = Char.ofNat 7) := by
  refine ⟨split_line_spec, ⟨tokensOf_nil, tokensOf_delim_cons, tokensOf_token_delim,
    tokensOf_token⟩, ?_, ?_, ?_⟩
  · intro line tokens h t ht
    rw [split_line_spec] at h
    injection h with h
    subst h
    exact tokensOf_clean (line.length + 1) line (Nat.lt_succ_self _) t ht
  · intro line h
    rw [split_line_spec, tokensOf_all_delim line h]
  · intro c
    simp [isDelim, LSH_TOK_DELIM]

theorem split_line_tokens_witness :
    lsh_split_line "  export\tNAME = John  Doe \r".toList =
      some ["export".toList, "NAME".toList, "=".toList, "John".toList, "Doe".toList] ∧
    (∀ t ∈ ["export".toList, "NAME".toList, "=".toList, "John".toList, "Doe".toList],
      t ≠ [] ∧ ∀ c ∈ t, isDelim c = false) ∧
    lsh_split_line "\t\t  ".toList = some [] ∧
    tokensOf ("ab".toList ++ ' ' :: "c".toList) = "ab".toList :: tokensOf "c".toList :=
  ⟨by decide,
    split_line_tokens.2.2.1 "  export\tNAME = John  Doe \r".toList _ (by decide),
    split_line_tokens.2.2.2.1 "\t\t  ".toList (by decide),
    split_line_tokens.2.1.2.2.1 "ab".toList ' ' "c".toList (by decide) (by decide) (by decide)⟩

/-- C12 (failing input): the return value of `lsh_execute` on a non-empty token vector is
0 for the first token `exit`, whatever follows, and 1 for every other first token, with
one exception: for `export` it is the return value of `lsh_export`, and the call
`export A=0123456789abcdef0123456789abcdef` overruns the value buffer, so that no value is
returned at all (neither with a 16-byte value). -/
theorem execute_disposition :
    (∀ (host : Host) (st : Store) (a0 : Token) (rest : List Token),
      (lsh_execute host st (a0 :: rest)).map (fun r => r.2.outcome.ret) =
        if a0 = "exit".toList then some 0
        else if a0 = "export".toList then (lsh_export st (a0 :: rest)).map (fun _ => 1)
        else some 1) ∧
    (∀ (host : Host) (st : Store),
      lsh_execute host st
        ["export".toList, "A=0123456789abcdef0123456789abcdef".toList] = none) ∧
    (∀ (host : Host) (st : Store),
      lsh_execute host st ["export".toList, "A=0123456789abcdef".toList] = none) ∧
    (lsh_execute calmHost [] ["exit".toList, "now".toList]).map (fun r => r.2.outcome.ret) =
      some 0 ∧
    (lsh_execute calmHost [] ["exits".toList]).map (fun r => r.2.outcome.ret) = some 1 := by
  refine ⟨execute_ret, ?_, ?_, by decide, by decide⟩
  · intro host st
    rw [execute_export]
    rw [show ["export".toList, "A=0123456789abcdef0123456789abcdef".toList] =
        ["export".toList, "A".toList ++ '=' :: "0123456789abcdef0123456789abcdef".toList]
        from rfl, export_overrun st _ _ _ (by decide) (by decide)]
    rfl
  · intro host st
    rw [execute_export]
    rw [show ["export".toList, "A=0123456789abcdef".toList] =
        ["export".toList, "A".toList ++ '=' :: "0123456789abcdef".toList]
        from rfl, export_overrun st _ _ _ (by decide) (by decide)]
    rfl

/-- C13: for the empty token vector `lsh_execute` returns 1 without handing the vector to
any built-in or to the launcher: the table is unchanged, nothing is written to stdout or
stderr, the directory is not changed and no child is started. -/
theorem execute_empty (host : Host) (st : Store) :
    lsh_execute host st [] =
      some (Invoked.nothing,
        { outcome := { store := st, out := [], err := [], ret := 1 },
          chdir := none, spawned := none }) :=
  rfl

/-- C14: for a valid name `N`, the invocations `export N`, `export N=` and `export N =`
(no further token) each return 1 with the table unchanged, nothing on stdout and
`lsh: export: expected more arguments` on stderr. -/
theorem export_expected_more (st : Store) (cmd n : Token) (hn : ValidName n) :
    lsh_export st [cmd, n] =
      some { store := st, out := [], err := msgMoreArgs, ret := 1 } ∧
    lsh_export st [cmd, n ++ ['=']] =
      some { store := st, out := [], err := msgMoreArgs, ret := 1 } ∧
    lsh_export st [cmd, n, ['=']] =
      some { store := st, out := [], err := msgMoreArgs, ret := 1 } ∧
    msgMoreArgs = "lsh: export: expected more arguments\n".toList :=
  ⟨(export_runs_out st cmd n hn).1, (export_runs_out st cmd n hn).2.1,
    (export_runs_out st cmd n hn).2.2, rfl⟩

theorem export_expected_more_witness :
    lsh_export fullStore ["export".toList, "NAME".toList] =
      some { store := fullStore, out := [], err := msgMoreArgs, ret := 1 } ∧
    lsh_export fullStore ["export".toList, "NAME".toList ++ ['=']] =
      some { store := fullStore, out := [], err := msgMoreArgs, ret := 1 } ∧
    lsh_export fullStore ["export".toList, "NAME".toList, ['=']] =
      some { store := fullStore, out := [], err := msgMoreArgs, ret := 1 } ∧
    msgMoreArgs = "lsh: export: expected more arguments\n".toList :=
  export_expected_more fullStore "export".toList "NAME".toList (by decide)

/-- C15: `isLetter` holds exactly for the codes 65..90 and 97..122 (A-Z, a-z), and an
`export` whose first extra token does not begin with such a byte returns 1 with the table
unchanged, nothing on stdout and the first-letter diagnostic on stderr, whatever the rest
of the token and the other tokens are. -/
theorem export_first_letter :
    (∀ c : Char, isLetter c = true ↔
      (65 ≤ c.toNat ∧ c.toNat ≤ 90) ∨ (97 ≤ c.toNat ∧ c.toNat ≤ 122)) ∧
    (∀ (st : Store) (args : List Token) (a1 : Token), args[1]? = some a1 →
      isLetter (charAt a1 0) = false →
      lsh_export st args =
        some { store := st, out := [], err := msgFirstLetter, ret := 1 }) ∧
    msgFirstLetter =
      "lsh: export: first letter of variable name must be a letter\n".toList := by
  refine ⟨?_, ?_, rfl⟩
  · intro c
    simp only [isLetter, gt_iff_lt, Bool.or_eq_true, Bool.and_eq_true, decide_eq_true_eq]
    omega
  · intro st args a1 h1 hl
    rw [lsh_export, h1]
    simp only
    rw [parseName, hl]
    rfl

theorem export_first_letter_witness :
    lsh_export fullStore ["export".toList, "1bad=x".toList] =
      some { store := fullStore, out := [], err := msgFirstLetter, ret := 1 } :=
  export_first_letter.2.1 fullStore ["export".toList, "1bad=x".toList] "1bad=x".toList
    (by decide) (by decide)

/-- C16 (counterexample): after `export XY=v` the variable `X` is not set, yet `echo $X`
writes `v`, a space and a newline, not just a space and a newline: the lookup accepts the
row `XY`, whose name begins with `X`. -/
theorem echo_unset_counterexample :
    Reachable [("XY".toList, "v".toList)] ∧
    "X".toList ∉ names [("XY".toList, "v".toList)] ∧
    (lsh_echo [("XY".toList, "v".toList)] ["echo".toList, "$X".toList]).err = "v \n".toList ∧
    (lsh_echo [("XY".toList, "v".toList)] ["echo".toList, "$X".toList]).err ≠ " \n".toList :=
  ⟨reachable_runExports [["export".toList, "XY=v".toList]] [] _ Reachable.empty
      (by decide) (by decide), by decide, by decide, by decide⟩

/-- C16 (amended): with zero extra arguments `lsh_echo` writes nothing; with tokens
`t1 .. tn` (n at least 1) it writes to stderr `e(t1)`, a space, ..., `e(tn)`, a space, and
one newline, where `e(t)` is `t` itself when `t` does not start with `$` and for `$REQ` is
the value of the first row whose name begins with REQ (empty when there is none); so
`echo $X` writes exactly a space and a newline when no stored name begins with `X`; the
table is never modified, nothing goes to stdout and the return value is 1. -/
theorem echo_output_format :
    (∀ (st : Store) (cmd : Token),
      lsh_echo st [cmd] = { store := st, out := [], err := [], ret := 1 }) ∧
    (∀ (st : Store) (cmd t : Token) (ts : List Token),
      lsh_echo st (cmd :: t :: ts) =
        { store := st, out := [],
          err := ((t :: ts).map (fun t => echoed st t ++ [' '])).flatten ++ ['\n'],
          ret := 1 }) ∧
    (∀ (st : Store) (cmd x : Token), (∀ m ∈ names st, ¬ x <+: m) →
      (lsh_echo st [cmd, '$' :: x]).err = [' ', '\n']) ∧
    (∀ (st : Store) (args : List Token), (lsh_echo st args).store = st) := by
  refine ⟨echo_alone, echo_format, ?_, echo_store⟩
  intro st cmd x hfree
  rw [echo_dollar, echoLookup_find, find_none_of_free st x hfree]
  rfl

theorem echo_output_format_witness :
    (lsh_echo fullStore ["echo".toList, '$' :: "X".toList]).err = [' ', '\n'] :=
  echo_output_format.2.2.1 fullStore "echo".toList "X".toList (by decide)

/-- C17: `export` with no extra argument returns 1, writes to stdout one line
`declare <name> = "<value>"` per table row, in row order, writes nothing to stderr and
leaves the table unchanged; after `export NAME = John Doe` on the empty table the listing
is exactly `declare NAME = "John Doe"` and a newline. -/
theorem export_listing :
    (∀ (st : Store) (cmd : Token),
      lsh_export st [cmd] =
        some { store := st, out := (st.map listingLine).flatten, err := [], ret := 1 }) ∧
    lsh_export [] ["export".toList, "NAME".toList, "=".toList, "John".toList, "Doe".toList] =
      some { store := [("NAME".toList, "John Doe".toList)], out := [], err := [], ret := 1 } ∧
    lsh_export [("NAME".toList, "John Doe".toList)] ["export".toList] =
      some { store := [("NAME".toList, "John Doe".toList)],
             out := "declare NAME = \"John Doe\"\n".toList, err := [], ret := 1 } :=
  ⟨fun st cmd => by rw [export_alone, listing_lines], by decide, by decide⟩

/-- C18 (failing input): every index written into `variable_name` is at most 10, but the
writes into `variable_value` are not bounded: `export A=0123456789abcdef` writes the
indices 0 to 16, the last one (the terminator) outside the 16-byte buffer, and a 32-byte
value writes the indices 0 to 32; a call overruns the buffer exactly when it computes an
index above 15. -/
theorem export_value_write_out_of_bounds :
    (∀ args : List Token, (exportWrites args).1.all (fun k => decide (k ≤ 10)) = true) ∧
    (∀ (st : Store) (args : List Token),
      lsh_export st args = none ↔ ∃ k ∈ (exportWrites args).2, 15 < k) ∧
    exportWrites ["export".toList, "A=0123456789abcde".toList] = ([0, 1], List.range 16) ∧
    exportWrites ["export".toList, "A=0123456789abcdef".toList] = ([0, 1], List.range 17) ∧
    16 ∈ (exportWrites ["export".toList, "A=0123456789abcdef".toList]).2 ∧
    (exportWrites ["export".toList, "A=0123456789abcdef0123456789abcdef".toList]).2 =
      List.range 33 := by
  refine ⟨?_, export_none_iff_overrun, by decide, by decide, by decide, by decide⟩
  intro args
  rw [List.all_eq_true]
  intro k hk
  simpa using name_writes_in_bounds args k hk

/-- C19: for a valid name `N` and tokens `V1 .. Vk` where `V1` is non-empty and does not
begin with `=`, `export N V1 .. Vk` has the same outcome (table, stdout, stderr, return
value) as `export N=V1 V2 .. Vk`: the value `V1 .. Vk` joined by single spaces is committed
under `N` when it has at most 15 bytes, and both overrun the value buffer alike when it has
more. -/
theorem export_eq_optional (st : Store) (cmd n v1 : Token) (vs : List Token)
    (hn : ValidName n) (hv1 : v1 ≠ []) (hfirst : charAt v1 0 ≠ '=') :
    lsh_export st (cmd :: n :: v1 :: vs) = lsh_export st (cmd :: (n ++ '=' :: v1) :: vs) ∧
    lsh_export st (cmd :: n :: v1 :: vs) =
      if (List.intercalate [' '] (v1 :: vs)).length ≤ 15 then
        some (commit st n (List.intercalate [' '] (v1 :: vs)))
      else none := by
  rw [export_bare_plain st cmd n v1 vs hn hv1 hfirst, export_joined st cmd n v1 vs hn hv1,
    intercalate_space]
  exact ⟨rfl, rfl⟩

theorem export_eq_optional_witness :
    lsh_export [] ["export".toList, "NAME".toList, "John".toList, "Doe".toList] =
      lsh_export [] ["export".toList, "NAME".toList ++ '=' :: "John".toList, "Doe".toList] ∧
    lsh_export [] ["export".toList, "NAME".toList, "John".toList, "Doe".toList] =
      if (List.intercalate [' '] ["John".toList, "Doe".toList]).length ≤ 15 then
        some (commit [] "NAME".toList (List.intercalate [' '] ["John".toList, "Doe".toList]))
      else none :=
  export_eq_optional [] "export".toList "NAME".toList "John".toList ["Doe".toList]
    (by decide) (by decide) (by decide)

/-- C20: in every table reachable from the empty one by calls of `lsh_export` (and of
`lsh_echo`) on token vectors of non-empty tokens, every stored value has at least one
byte; and for a valid name `N`, `export N=` commits nothing: it is answered by
`expected more arguments` with the table unchanged. -/
theorem stored_values_nonempty :
    (∀ st : Store, Reachable st → ∀ p ∈ st, 1 ≤ p.2.length) ∧
    (∀ (st : Store) (cmd n : Token), ValidName n →
      lsh_export st [cmd, n ++ ['=']] =
        some { store := st, out := [], err := msgMoreArgs, ret := 1 }) :=
  ⟨reachable_values_pos, fun st cmd n hn => (export_runs_out st cmd n hn).2.1⟩

theorem stored_values_nonempty_witness :
    (∀ p ∈ fullStore, 1 ≤ p.2.length) ∧
    lsh_export fullStore ["export".toList, "N".toList ++ ['=']] =
      some { store := fullStore, out := [], err := msgMoreArgs, ret := 1 } :=
  ⟨stored_values_nonempty.1 fullStore fullStore_reachable,
    stored_values_nonempty.2 fullStore "export".toList "N".toList (by decide)⟩

end Lsh
